import Mathlib

/-!
Shallow embedding of the `openid2` package (an OpenID 2.0 provider engine)
and verification of its specification claims.

Modelling conventions used throughout:
* Go byte slices are modelled as `List Char` (for message text) or `List Nat`
  (for raw random bytes and digests); Go strings are Lean `String`s.
* Go maps (`map[string]string`, `map[string]Association`, ...) are modelled as
  association lists with unique keys; map indexing, which yields the zero
  value for a missing key, is modelled by a lookup with default.
* Go `error` values become the inductive type `Err`; functions returning
  `(T, error)` become `Except Err T`.
* `crypto/rand` randomness is modelled by explicit byte streams
  (`Nat → Nat`) passed as arguments.
* `time.Time` is modelled as `Int` nanoseconds; `time.Minute` is the
  constant `minuteNs`.
* The HMAC primitives from `crypto/hmac` + `crypto/sha1` / `crypto/sha256`
  are external library collaborators; they are modelled as opaque function
  parameters (`hm1`, `hm2`) taking a key and a message.  Everything the
  repository itself computes (message assembly, type dispatch, base64 and
  ascii85 text encodings) is modelled concretely.
-/

namespace OpenId2

/-- Error values of the package.  Go uses sentinel `error` values and
formatted errors; each distinct error source gets one constructor. -/
inductive Err where
  | duplicateAssociation : Err
  | unsupportedAssocType : String → Err
  | unsupportedSessionType : String → Err
  | invalidKeyValueLine : List Char → Err
  | cannotStoreAssociation : Err
  | nsPrefixNotAllowed : String → Err
  | nsPrefixConflict : String → Err
  | namespaceConflict : String → Err
  | unknownNs : String → Err
  | unknownMode : String → Err
  | noReturnTo : Err
  | unauthenticated : Err
  | storeFailure : String → Err
  deriving DecidableEq, Repr

/-- Flat string-to-string parameter map, the in-memory form of a protocol
message (Go `map[string]string`), as an association list. -/
abbrev Params := List (String × String)

/-- Lookup in an association list (Go map read returning `(value, ok)`). -/
def lookupA {β : Type} : List (String × β) → String → Option β
  | [], _ => none
  | (k, v) :: rest, key => if k = key then some v else lookupA rest key

/-- Map write `m[k] = v`: overwrite the existing entry or append. -/
def setA {β : Type} : List (String × β) → String → β → List (String × β)
  | [], k, v => [(k, v)]
  | (k0, v0) :: rest, k, v =>
    if k0 = k then (k0, v) :: rest else (k0, v0) :: setA rest k v

/-- Map deletion `delete(m, k)`. -/
def eraseA {β : Type} : List (String × β) → String → List (String × β)
  | [], _ => []
  | (k0, v0) :: rest, k =>
    if k0 = k then rest else (k0, v0) :: eraseA rest k

/-- Go map indexing `params[k]`, which yields the zero value `""` when the
key is absent. -/
def pget (p : Params) (k : String) : String := (lookupA p k).getD ""

/-- Fixed protocol namespace URI (constant `Namespace` in the source). -/
def Namespace : String := "http://specs.openid.net/auth/2.0"

/-! ### Key-value codec (`ParseKeyValue`, `EncodeKeyValue`, `WriteKeyValuePair`) -/

/-- One `key:value\n` line as written by `WriteKeyValuePair`
(`fmt.Fprintf(w, "%s:%s\n", key, value)`). -/
def writeKeyValuePair (key value : String) : List Char :=
  key.data ++ ':' :: value.data ++ ['\n']

/-- Model of `bytes.Split(body, sep)` for a one-character separator: split
into the (possibly empty) segments between separators.  An empty input
yields one empty segment, as in Go. -/
def splitSep (c : Char) : List Char → List (List Char)
  | [] => [[]]
  | x :: xs =>
    match splitSep c xs with
    | [] => [[]]
    | seg :: rest => if x = c then [] :: seg :: rest else (x :: seg) :: rest

/-- Model of `bytes.SplitN(b, sep, 2)` for a one-character separator:
break at the first occurrence, or `none` when the separator is absent
(in which case Go returns a single part and the caller sees `len != 2`). -/
def breakAtChar (c : Char) : List Char → Option (List Char × List Char)
  | [] => none
  | x :: xs =>
    if x = c then some ([], xs)
    else (breakAtChar c xs).map (fun pr => (x :: pr.1, pr.2))

/-- `EncodeKeyValue` writes every entry of the map as a `key:value\n` line. -/
def EncodeKeyValue (p : Params) : List Char :=
  (p.map (fun kv => writeKeyValuePair kv.1 kv.2)).flatten

/-- Inner loop of `ParseKeyValue`: each `\n`-separated segment must split
at a colon into a key and a value; otherwise the whole parse fails. -/
def parseKeyValueLines : List (List Char) → Params → Except Err Params
  | [], acc => .ok acc
  | seg :: rest, acc =>
    match breakAtChar ':' seg with
    | none => .error (.invalidKeyValueLine seg)
    | some (k, v) => parseKeyValueLines rest (setA acc k.asString v.asString)

/-- `ParseKeyValue` splits the body on newlines and parses every segment
as a `key:value` pair. -/
def ParseKeyValue (body : List Char) : Except Err Params :=
  parseKeyValueLines (splitSep '\n' body) []

/-! ### Text encodings (`encoding/base64` URL alphabet, `encoding/ascii85`)

These are external standard-library collaborators of the repository; they
are deterministic codecs and are modelled concretely, byte for byte. -/

/-- URL-safe base64 alphabet (`base64.URLEncoding`). -/
def base64UrlChar (n : Nat) : Char :=
  if n < 26 then Char.ofNat (65 + n)
  else if n < 52 then Char.ofNat (97 + (n - 26))
  else if n < 62 then Char.ofNat (48 + (n - 52))
  else if n = 62 then Char.ofNat 45
  else Char.ofNat 95

/-- URL-safe base64 with padding, as `base64.URLEncoding.EncodeToString`. -/
def base64UrlEncode : List Nat → List Char
  | [] => []
  | [b0] =>
    let v := b0 * 65536
    [base64UrlChar (v / 262144), base64UrlChar (v / 4096 % 64), Char.ofNat 61, Char.ofNat 61]
  | [b0, b1] =>
    let v := b0 * 65536 + b1 * 256
    [base64UrlChar (v / 262144), base64UrlChar (v / 4096 % 64),
     base64UrlChar (v / 64 % 64), Char.ofNat 61]
  | b0 :: b1 :: b2 :: rest =>
    let v := b0 * 65536 + b1 * 256 + b2
    base64UrlChar (v / 262144) :: base64UrlChar (v / 4096 % 64) ::
      base64UrlChar (v / 64 % 64) :: base64UrlChar (v % 64) :: base64UrlEncode rest

/-- Five base-85 digits of one 32-bit group, as in `ascii85.Encode`. -/
def ascii85Chunk (v : Nat) : List Char :=
  [Char.ofNat (33 + v / 52200625 % 85), Char.ofNat (33 + v / 614125 % 85),
   Char.ofNat (33 + v / 7225 % 85), Char.ofNat (33 + v / 85 % 85),
   Char.ofNat (33 + v % 85)]

/-- Model of `ascii85.Encode`: process the input in four-byte groups, with
the `z` shortcut for an all-zero full group, and a truncated final chunk
for a short trailing group. -/
def ascii85Encode : List Nat → List Char
  | [] => []
  | b0 :: b1 :: b2 :: b3 :: rest =>
    let v := ((b0 * 256 + b1) * 256 + b2) * 256 + b3
    if v = 0 then 'z' :: ascii85Encode rest
    else ascii85Chunk v ++ ascii85Encode rest
  | [b0] => (ascii85Chunk (b0 * 16777216)).take 2
  | [b0, b1] => (ascii85Chunk ((b0 * 256 + b1) * 65536)).take 3
  | [b0, b1, b2] => (ascii85Chunk (((b0 * 256 + b1) * 256 + b2) * 256)).take 4

/-! ### Associations (`association.go`) -/

/-- Association type strings (constants `hmacSHA1`, `hmacSHA256`). -/
def hmacSHA1 : String := "HMAC-SHA1"

def hmacSHA256 : String := "HMAC-SHA256"

/-- Fixed association TTL: `time.Minute` in nanoseconds. -/
def minuteNs : Int := 60000000000

/-- An openid association (struct `Association`). -/
structure Association where
  Endpoint : String
  Handle : String
  Secret : List Nat
  /-- Field `Type` in the source; `Type` is a Lean keyword. -/
  Typ : String
  Expires : Int
  deriving DecidableEq, Repr

/-- Message bytes accumulated into the HMAC by `Association.sign`: one
`WriteKeyValuePair` line per signed field, in order. -/
def signMessage (params : Params) (signed : List String) : List Char :=
  signed.foldl (fun acc k => acc ++ writeKeyValuePair k (pget params k)) []

/-- Model of `Association.sign`.  `hm1` and `hm2` stand for the external
`hmac.New(sha1.New, key)` and `hmac.New(sha256.New, key)` digests: each
maps the key and accumulated message to the digest bytes. -/
def Association.sign (hm1 hm2 : List Nat → List Char → List Nat)
    (a : Association) (params : Params) (signed : List String) :
    Except Err String :=
  if a.Typ = hmacSHA1 then
    .ok (base64UrlEncode (hm1 a.Secret (signMessage params signed))).asString
  else if a.Typ = hmacSHA256 then
    .ok (base64UrlEncode (hm2 a.Secret (signMessage params signed))).asString
  else
    .error (.unsupportedAssocType a.Typ)

/-! ### Association stores -/

/-- The `AssociationStore` interface, as a bundle of operations over a
store state type `σ`.  `get` reports absence as `none` (not an error);
`add` reports a duplicate `(Endpoint, Handle)` as
`Err.duplicateAssociation`. -/
structure StoreOps (σ : Type) where
  add : σ → Association → Except Err σ
  get : σ → String → String → Except Err (Option Association)
  find : σ → String → Except Err (List Association)
  delete : σ → String → String → Except Err σ

/-- In-memory reference store (struct `MemoryAssociationStore`): a
two-level map, endpoint to handle to association. -/
structure MemoryAssociationStore where
  m : List (String × List (String × Association))
  deriving DecidableEq, Repr

/-- `MemoryAssociationStore.Get`: `nil, nil` when the endpoint or handle
is absent. -/
def memGet (s : MemoryAssociationStore) (endpoint handle : String) :
    Option Association :=
  match lookupA s.m endpoint with
  | none => none
  | some inner => lookupA inner handle

/-- `MemoryAssociationStore.Add`: duplicate error when already present,
otherwise insert into the inner map for the endpoint. -/
def memAdd (s : MemoryAssociationStore) (a : Association) :
    Except Err MemoryAssociationStore :=
  match memGet s a.Endpoint a.Handle with
  | some _ => .error .duplicateAssociation
  | none =>
    let inner := (lookupA s.m a.Endpoint).getD []
    .ok ⟨setA s.m a.Endpoint (setA inner a.Handle a)⟩

/-- `MemoryAssociationStore.Delete`: a no-op when absent. -/
def memDelete (s : MemoryAssociationStore) (endpoint handle : String) :
    MemoryAssociationStore :=
  match memGet s endpoint handle with
  | none => s
  | some _ =>
    let inner := (lookupA s.m endpoint).getD []
    ⟨setA s.m endpoint (eraseA inner handle)⟩

/-- `MemoryAssociationStore.Find`: all associations for an endpoint. -/
def memFind (s : MemoryAssociationStore) (endpoint : String) :
    List Association :=
  ((lookupA s.m endpoint).getD []).map Prod.snd

/-- The reference store packaged as `StoreOps`. -/
def memOps : StoreOps MemoryAssociationStore where
  add := memAdd
  get := fun s e h => .ok (memGet s e h)
  find := fun s e => .ok (memFind s e)
  delete := fun s e h => .ok (memDelete s e h)

/-- Handle text used by `saveAssociation`: 16 random bytes, ascii85
encoded. -/
def encodeHandle (bytes : List Nat) : String := (ascii85Encode bytes).asString

/-- Retry loop of `saveAssociation`: `attempt` is the loop counter `i`,
`fuel` the remaining iterations of `for i := 0; i < 10; i++`.  `hbytes k`
is the 16-byte random block drawn by `rand.Read` on attempt `k`.  A
duplicate-handle error moves to the next attempt; any other error, or
running out of attempts, fails the operation. -/
def saveAssociationGo {σ : Type} (ops : StoreOps σ) (a : Association)
    (hbytes : Nat → List Nat) (s : σ) :
    Nat → Nat → Except Err (Association × σ)
  | _, 0 => .error .cannotStoreAssociation
  | attempt, fuel + 1 =>
    let a' := { a with Handle := encodeHandle (hbytes attempt) }
    match ops.add s a' with
    | .ok s' => .ok (a', s')
    | .error e =>
      if e = .duplicateAssociation then
        saveAssociationGo ops a hbytes s (attempt + 1) fuel
      else .error e

/-- Model of `saveAssociation`: at most 10 handle-generation attempts. -/
def saveAssociation {σ : Type} (ops : StoreOps σ) (s : σ) (a : Association)
    (hbytes : Nat → List Nat) : Except Err (Association × σ) :=
  saveAssociationGo ops a hbytes s 0 10

/-- Model of `Handler.getAssociation`.  `now` is `time.Now()`; `rng` is the
`crypto/rand` byte stream: bytes 0..127 fill the fresh secret, and bytes
128 + 16k .. 128 + 16k + 15 form the handle of store attempt `k`.  The
`nonce` argument is unused, exactly as in the source.  The result of
`store.Delete` on the expired path is dropped, as in the source. -/
def getAssociation {σ : Type} (ops : StoreOps σ) (s : σ) (now : Int)
    (rng : Nat → Nat) (requestHandle _nonce : String) :
    Except Err (Association × σ) :=
  let fresh (s : σ) : Except Err (Association × σ) :=
    let secret := (List.range 128).map rng
    let a : Association :=
      { Endpoint := "", Handle := "", Secret := secret, Typ := hmacSHA256,
        Expires := now + minuteNs }
    saveAssociation ops s a (fun k => (List.range 16).map (fun t => rng (128 + 16 * k + t)))
  if requestHandle ≠ "" then
    match ops.get s "" requestHandle with
    | .error e => .error e
    | .ok (some a) =>
      if now < a.Expires then .ok (a, s)
      else
        let s' := match ops.delete s "" requestHandle with
          | .ok s' => s'
          | .error _ => s
        fresh s'
    | .ok none => fresh s
  else fresh s

/-- Model of `Handler.associate`: every session type hits the default
branch and returns the unsupported-session-type error. -/
def associate (params : Params) : Except Err Params :=
  .error (.unsupportedSessionType (pget params "session_type"))

/-- Model of `Handler.checkAuthentication`. -/
def checkAuthentication {σ : Type} (hm1 hm2 : List Nat → List Char → List Nat)
    (ops : StoreOps σ) (s : σ) (params : Params) :
    Except Err (Params × σ) :=
  match ops.get s "" (pget params "assoc_handle") with
  | .error e => .error e
  | .ok none => .ok ([("ns", Namespace), ("is_valid", "false")], s)
  | .ok (some assoc) =>
    let signed := (pget params "signed").splitOn ","
    match Association.sign hm1 hm2 assoc params signed with
    | .error e => .error e
    | .ok sig =>
      if pget params "sig" ≠ sig then
        .ok ([("ns", Namespace), ("is_valid", "false")], s)
      else
        -- the source ignores the result of store.Delete
        let s' := match ops.delete s "" assoc.Handle with
          | .ok s' => s'
          | .error _ => s
        .ok ([("ns", Namespace), ("is_valid", "true")], s')

/-! ### Extension negotiation (`parseExtensions`, `encodeExtensions`) -/

/-- An extension namespace riding in one message (struct `Extension`).
The source field `Prefix` is named `Pfx` here, `prefix` being a Lean
keyword. -/
structure Extension where
  Namespace : String
  Pfx : String
  Params : Params
  deriving DecidableEq, Repr

/-- Reserved field names that may never serve as an extension prefix
(map `bannedPrefixes`). -/
def bannedPrefixes : List String :=
  ["assoc_handle", "assoc_type", "claimed_id", "contact", "delegate",
   "dh_consumer_public", "dh_gen", "dh_modulus", "error", "identity",
   "invalidate_handle", "mode", "ns", "op_endpoint", "openid", "realm",
   "reference", "response_nonce", "return_to", "server", "session_type",
   "sig", "signed", "trust_root"]

/-- `strings.SplitN(k, ".", 2)` on a key, `none` when there is no dot. -/
def splitKey (k : String) : Option (String × String) :=
  (breakAtChar '.' k.data).map (fun pr => (pr.1.asString, pr.2.asString))

/-- First pass of `parseExtensions`: fold over the parameter entries,
recording `prefix to namespace` and `namespace to prefix` maps, rejecting
banned prefixes and conflicting declarations. -/
def buildPrefixMaps : List (String × String) → Params → Params →
    Except Err (Params × Params)
  | [], pfxs, nss => .ok (pfxs, nss)
  | (k, v) :: rest, pfxs, nss =>
    match splitKey k with
    | none => buildPrefixMaps rest pfxs nss
    | some (p0, pfx) =>
      if p0 ≠ "ns" then buildPrefixMaps rest pfxs nss
      else if pfx ∈ bannedPrefixes then .error (.nsPrefixNotAllowed pfx)
      else if (lookupA pfxs pfx).getD v ≠ v then .error (.nsPrefixConflict pfx)
      else if (lookupA nss v).getD pfx ≠ pfx then .error (.namespaceConflict v)
      else buildPrefixMaps rest (setA pfxs pfx v) (setA nss v pfx)

/-- Record one `prefix.key` entry into the extension declared for that
prefix, if any (second pass of `parseExtensions`). -/
def addExtParam : List Extension → String → String → String → List Extension
  | [], _, _, _ => []
  | e :: es, p0, key, v =>
    if e.Pfx = p0 then { e with Params := setA e.Params key v } :: es
    else e :: addExtParam es p0 key v

/-- Second pass of `parseExtensions`: collect every `prefix.key` entry
whose prefix was declared; keys without a dot, `ns.*` keys, and entries
with an undeclared prefix are skipped. -/
def collectExtParams : List (String × String) → List Extension → List Extension
  | [], exts => exts
  | (k, v) :: rest, exts =>
    match splitKey k with
    | none => collectExtParams rest exts
    | some (p0, key) =>
      if p0 = "ns" then collectExtParams rest exts
      else collectExtParams rest (addExtParam exts p0 key v)

/-- Model of `parseExtensions`. -/
def parseExtensions (params : Params) : Except Err (List Extension) :=
  match buildPrefixMaps params [] [] with
  | .error e => .error e
  | .ok (pfxs, _) =>
    let exts := pfxs.map (fun pn => { Namespace := pn.2, Pfx := pn.1, Params := [] : Extension })
    .ok (collectExtParams params exts)

/-- Generated prefix label `fmt.Sprintf("ext%d", i)`. -/
def extName (i : Nat) : String := "ext" ++ Nat.repr i

/-- The prefix-choice loop of `encodeExtensions`: while the candidate is
banned or already used, replace it with the generated label `ext i` and
bump the counter.  The Go loop is unbounded; here it carries fuel, and
`choosePfxAux_spec` below shows the fuel passed by `encodeExtGo` always
suffices, so the `none` branch is never taken. -/
def choosePfxAux (used : List String) : Nat → String → Nat →
    Option (String × Nat)
  | 0, _, _ => none
  | fuel + 1, cand, i =>
    if cand ∈ bannedPrefixes ∨ cand ∈ used then
      choosePfxAux used fuel (extName i) (i + 1)
    else some (cand, i)

/-- Emit one extension under the chosen prefix: declare `ns.<pfx>` and
write every parameter as `<pfx>.<key>`, recording each such key as a
signable field (body of the `encodeExtensions` loop). -/
def emitExtension (pfx : String) (ext : Extension) (ps : Params)
    (signed : List String) : Params × List String :=
  let ps := setA ps ("ns." ++ pfx) ext.Namespace
  ext.Params.foldl
    (fun acc kv => (setA acc.1 (pfx ++ "." ++ kv.1) kv.2, acc.2 ++ [pfx ++ "." ++ kv.1]))
    (ps, signed)

/-- Loop of `encodeExtensions` over the extension list, threading the
`used` set, the generated-label counter `i`, the output parameter map and
the signable-field list. -/
def encodeExtGo : List Extension → List String → Nat → Params →
    List String → Params × List String
  | [], _, _, ps, signed => (ps, signed)
  | ext :: rest, used, i, ps, signed =>
    match choosePfxAux used (used.length + 2) ext.Pfx i with
    | none => (ps, signed)
    | some (pfx, i') =>
      let (ps', signed') := emitExtension pfx ext ps signed
      encodeExtGo rest (pfx :: used) i' ps' signed'

/-- Model of `encodeExtensions`: returns the updated parameter map
together with the signable extension field names, in emission order. -/
def encodeExtensions (ps : Params) (exts : List Extension) :
    Params × List String :=
  encodeExtGo exts [] 0 ps []

/-! ### Login flow and dispatcher -/

/-- An openid login request (struct `LoginRequest`). -/
structure LoginRequest where
  ClaimedID : String
  Identity : String
  ReturnTo : String
  Realm : String
  Extensions : List Extension
  deriving DecidableEq, Repr

/-- Response to a login request (struct `LoginResponse`). -/
structure LoginResponse where
  ClaimedID : String
  Identity : String
  OPEndpoint : String
  Extensions : List Extension
  deriving DecidableEq, Repr

/-- Model of `parseLoginRequest`. -/
def parseLoginRequest (params : Params) : Except Err LoginRequest :=
  match parseExtensions params with
  | .error e => .error e
  | .ok extensions =>
    .ok { ClaimedID := pget params "claimed_id",
          Identity := pget params "identity",
          ReturnTo := pget params "return_to",
          Realm := pget params "realm",
          Extensions := extensions }

/-- The external authentication-decision collaborator
(`LoginHandler.Login`).  The `Bool` marks whether the call may interact
with the user (`checkid_setup` passes the real response writer,
`checkid_immediate` passes nil).  Like the Go multi-value return, a
response and an error may be present simultaneously. -/
def LoginFn : Type := Bool → LoginRequest → Option LoginResponse × Option Err

/-- The provider handler (struct `Handler`).  The association store is
passed to each operation explicitly (`StoreOps` plus a state), so only
the login collaborator lives here; a `none` collaborator models a nil
`Login` field. -/
structure Handler where
  loginFn : Option LoginFn

instance {ε α : Type} [DecidableEq ε] [DecidableEq α] :
    DecidableEq (Except ε α) := fun a b =>
  match a, b with
  | .ok x, .ok y =>
    if h : x = y then .isTrue (by rw [h]) else .isFalse (by simp [h])
  | .error x, .error y =>
    if h : x = y then .isTrue (by rw [h]) else .isFalse (by simp [h])
  | .ok _, .error _ => .isFalse (by simp)
  | .error _, .ok _ => .isFalse (by simp)

/-- One delivery by a responder: a direct body, an indirect redirect to a
return-to URL, or a panic (`login` panics on an unexpected mode).  The
payload mirrors `respond(params, err)`. -/
inductive Event where
  | direct : Except Err Params → Event
  | indirectRedirect : String → Except Err Params → Event
  | panicked : String → Event
  deriving DecidableEq, Repr

/-- Model of the `indirect` responder constructor: fall back to a direct
response when `returnTo` is empty.  (The source also falls back when
`url.Parse` fails; URL syntax is not modelled, and no claim depends on
it.) -/
def indirectR (returnTo : String) (payload : Except Err Params) : Event :=
  if returnTo = "" then .direct payload else .indirectRedirect returnTo payload

/-- Model of `Handler.getNonce`: the RFC3339 text of the current UTC time
(via the opaque formatter `fmtTime`) followed by 16 ascii85-encoded random
bytes. -/
def getNonce (fmtTime : Int → String) (now : Int) (bytes : List Nat) : String :=
  fmtTime now ++ (ascii85Encode bytes).asString

/-- Assertion building: the tail of `Handler.login` once a produced
`LoginResponse` breaks out of the mode switch.  Returns the emitted events
and the resulting store state. -/
def buildAssertion {σ : Type} (hm1 hm2 : List Nat → List Char → List Nat)
    (ops : StoreOps σ) (now : Int) (rng : Nat → Nat) (fmtTime : Int → String)
    (s : σ) (params : Params) (resp : LoginResponse) : List Event × σ :=
  let returnTo := pget params "return_to"
  if returnTo = "" then ([.direct (.error .noReturnTo)], s)
  else
    let nonce := getNonce fmtTime now ((List.range 16).map rng)
    match getAssociation ops s now (fun t => rng (16 + t)) (pget params "assoc_handle") nonce with
    | .error e => ([indirectR returnTo (.error e)], s)
    | .ok (assoc, s') =>
      let signed0 := ["op_endpoint", "return_to", "response_nonce", "assoc_handle"]
      let rparams0 : Params :=
        [("ns", Namespace), ("mode", "id_res"), ("return_to", returnTo),
         ("op_endpoint", resp.OPEndpoint), ("response_nonce", nonce),
         ("assoc_handle", assoc.Handle)]
      let (signed1, rparams1) :=
        if resp.ClaimedID ≠ "" then
          (signed0 ++ ["claimed_id"], setA rparams0 "claimed_id" resp.ClaimedID)
        else (signed0, rparams0)
      let (signed2, rparams2) :=
        if resp.Identity ≠ "" then
          (signed1 ++ ["identity"], setA rparams1 "identity" resp.Identity)
        else (signed1, rparams1)
      let rparams3 :=
        if pget params "assoc_handle" ≠ "" ∧ pget params "assoc_handle" ≠ assoc.Handle then
          setA rparams2 "invalidate_handle" (pget params "assoc_handle")
        else rparams2
      let (rparams4, extSigned) := encodeExtensions rparams3 resp.Extensions
      let signed := signed2 ++ extSigned
      let rparams5 := setA rparams4 "signed" (String.intercalate "," signed)
      match Association.sign hm1 hm2 assoc rparams5 signed with
      | .error e => ([indirectR returnTo (.error e)], s')
      | .ok sig => ([indirectR returnTo (.ok (setA rparams5 "sig" sig))], s')

/-- Model of `Handler.login`. -/
def login {σ : Type} (hm1 hm2 : List Nat → List Char → List Nat)
    (h : Handler) (ops : StoreOps σ) (now : Int) (rng : Nat → Nat)
    (fmtTime : Int → String) (s : σ) (params : Params) : List Event × σ :=
  let returnTo := pget params "return_to"
  match parseLoginRequest params with
  | .error e => ([indirectR returnTo (.error e)], s)
  | .ok req =>
    let run (interactive : Bool) : Option LoginResponse × Option Err :=
      match h.loginFn with
      | none => (none, none)
      | some f => f interactive req
    match pget params "mode" with
    | "checkid_immediate" =>
      let (resp, err) := run false
      match err with
      | some e =>
        if e ≠ .unauthenticated then ([indirectR returnTo (.error e)], s)
        else match resp with
          | some r => buildAssertion hm1 hm2 ops now rng fmtTime s params r
          | none =>
            ([indirectR returnTo (.ok [("ns", Namespace), ("mode", "setup_needed")])], s)
      | none =>
        match resp with
        | some r => buildAssertion hm1 hm2 ops now rng fmtTime s params r
        | none =>
          ([indirectR returnTo (.ok [("ns", Namespace), ("mode", "setup_needed")])], s)
    | "checkid_setup" =>
      let (resp, err) := run true
      match err with
      | some e =>
        if e ≠ .unauthenticated then ([indirectR returnTo (.error e)], s)
        else match resp with
          | some r => buildAssertion hm1 hm2 ops now rng fmtTime s params r
          | none => ([indirectR returnTo (.ok [("ns", Namespace), ("mode", "cancel")])], s)
      | none =>
        match resp with
        | some r => buildAssertion hm1 hm2 ops now rng fmtTime s params r
        | none => ([], s)   -- the collaborator completed the exchange itself
    | m => ([.panicked ("login called with unexpected mode " ++ m)], s)

/-- Model of `Handler.ServeHTTP` after transport decoding: the dispatcher
over the flat parameter map.  Note the source emits the unknown-ns error
response and then still falls through to the mode switch (there is no
early return in that branch); the model reproduces that faithfully. -/
def serveHTTP {σ : Type} (hm1 hm2 : List Nat → List Char → List Nat)
    (h : Handler) (ops : StoreOps σ) (now : Int) (rng : Nat → Nat)
    (fmtTime : Int → String) (s : σ) (params : Params) : List Event × σ :=
  let nsEvents :=
    if pget params "ns" = Namespace then []
    else [indirectR (pget params "return_to") (.error (.unknownNs (pget params "ns")))]
  let (modeEvents, s') :=
    match pget params "mode" with
    | "associate" => ([Event.direct (associate params)], s)
    | "checkid_immediate" => login hm1 hm2 h ops now rng fmtTime s params
    | "checkid_setup" => login hm1 hm2 h ops now rng fmtTime s params
    | "check_authentication" =>
      match checkAuthentication hm1 hm2 ops s params with
      | .ok (p, s') => ([Event.direct (.ok p)], s')
      | .error e => ([Event.direct (.error e)], s)
    | m => ([indirectR (pget params "return_to") (.error (.unknownMode m))], s)
  (nsEvents ++ modeEvents, s')

/-! ### Statement-side forms for the login assertion (C5)

These definitions spell out, in the words of the specification, the
response the login flow is claimed to assemble: the fixed-order signed
list and the response parameter map before the signature is attached.
The C5 theorem relates `login` to them. -/

/-- The fixed head of the signed list: the four mandatory fields, then
`claimed_id` and `identity` when the response carries them. -/
def assertSignedBase (rsp : LoginResponse) : List String :=
  ["op_endpoint", "return_to", "response_nonce", "assoc_handle"] ++
    (if rsp.ClaimedID ≠ "" then ["claimed_id"] else []) ++
    (if rsp.Identity ≠ "" then ["identity"] else [])

/-- The response map just before extension encoding: core fields, the
optional identity fields, and `invalidate_handle` when the client-sent
handle was replaced. -/
def assertRp3 (params : Params) (rsp : LoginResponse) (assoc : Association)
    (nonce : String) : Params :=
  let rp0 : Params := [("ns", Namespace), ("mode", "id_res"),
    ("return_to", pget params "return_to"), ("op_endpoint", rsp.OPEndpoint),
    ("response_nonce", nonce), ("assoc_handle", assoc.Handle)]
  let rp1 := if rsp.ClaimedID ≠ "" then setA rp0 "claimed_id" rsp.ClaimedID else rp0
  let rp2 := if rsp.Identity ≠ "" then setA rp1 "identity" rsp.Identity else rp1
  if pget params "assoc_handle" ≠ "" ∧ pget params "assoc_handle" ≠ assoc.Handle then
    setA rp2 "invalidate_handle" (pget params "assoc_handle") else rp2

/-- The complete signed list: the fixed head followed by the field names
the extension encoder emits, in emission order. -/
def assertSignedList (params : Params) (rsp : LoginResponse) (assoc : Association)
    (nonce : String) : List String :=
  assertSignedBase rsp ++
    (encodeExtensions (assertRp3 params rsp assoc nonce) rsp.Extensions).2

/-- The response map after extension encoding with the comma-joined
`signed` field attached (everything except `sig`). -/
def assertParams (params : Params) (rsp : LoginResponse) (assoc : Association)
    (nonce : String) : Params :=
  setA (encodeExtensions (assertRp3 params rsp assoc nonce) rsp.Extensions).1 "signed"
    (String.intercalate "," (assertSignedList params rsp assoc nonce))

/-- Per-prefix view of the second parsing pass: the parameters collected
for one declared prefix. -/
def collectFor (p : String) (ps : List (String × String)) (acc : Params) : Params :=
  ps.foldl (fun acc kv =>
    match splitKey kv.1 with
    | none => acc
    | some (p0, key) => if p0 = p ∧ p0 ≠ "ns" then setA acc key kv.2 else acc) acc

/-- Decimal value of a digit string, used to invert `Nat.repr`. -/
def decodeDigits (l : List Char) : Nat :=
  l.foldl (fun acc c => acc * 10 + (c.toNat - 48)) 0

/-- Emission under an explicitly given prefix per extension: the claim
describes the encoder as choosing a prefix for each extension and then
emitting it; this function performs exactly that emission. -/
def encodeWithChosen : List Extension → List String → Params → List String →
    Params × List String
  | [], _, ps, signed => (ps, signed)
  | _ :: _, [], ps, signed => (ps, signed)
  | ext :: rest, c :: cs, ps, signed =>
    encodeWithChosen rest cs (emitExtension c ext ps signed).1
      (emitExtension c ext ps signed).2

/-! ### Association-list lemmas -/

theorem lookupA_setA_self {β : Type} (l : List (String × β)) (k : String) (v : β) :
    lookupA (setA l k v) k = some v := by
  induction l with
  | nil => simp [setA, lookupA]
  | cons kv rest ih =>
    by_cases h : kv.1 = k
    · simp [setA, lookupA, h]
    · simp [setA, lookupA, h, ih]

theorem lookupA_setA_ne {β : Type} (l : List (String × β)) (k k' : String) (v : β)
    (h : k' ≠ k) : lookupA (setA l k v) k' = lookupA l k' := by
  have hkk : ¬(k = k') := fun hc => h hc.symm
  induction l with
  | nil => simp [setA, lookupA, hkk]
  | cons kv rest ih =>
    by_cases hk : kv.1 = k
    · simp [setA, lookupA, hk, hkk]
    · simp [setA, lookupA, hk, ih]

theorem lookupA_mem {β : Type} (l : List (String × β)) (k : String) (v : β)
    (h : lookupA l k = some v) : (k, v) ∈ l := by
  induction l with
  | nil => simp [lookupA] at h
  | cons kv rest ih =>
    obtain ⟨a, b⟩ := kv
    by_cases hk : a = k
    · subst hk
      have hb : b = v := Option.some.inj (by simpa [lookupA] using h)
      subst hb
      exact List.mem_cons_self _ _
    · simp [lookupA, hk] at h
      exact List.mem_cons_of_mem _ (ih h)

theorem lookupA_eraseA_self {β : Type} (l : List (String × β)) (k : String)
    (hnd : (l.map Prod.fst).Nodup) : lookupA (eraseA l k) k = none := by
  induction l with
  | nil => simp [eraseA, lookupA]
  | cons kv rest ih =>
    simp only [List.map_cons, List.nodup_cons] at hnd
    by_cases hk : kv.1 = k
    · have : lookupA rest k = none := by
        rcases hl : lookupA rest k with _ | v
        · rfl
        · exact absurd (List.mem_map_of_mem Prod.fst (lookupA_mem _ _ _ hl))
            (by simpa [hk] using hnd.1)
      simpa [eraseA, hk] using this
    · simp [eraseA, lookupA, hk, ih hnd.2]

theorem lookupA_none {β : Type} (l : List (String × β)) (k : String)
    (h : lookupA l k = none) (v : β) : (k, v) ∉ l := by
  induction l with
  | nil => simp
  | cons kv rest ih =>
    by_cases hk : kv.1 = k
    · simp [lookupA, hk] at h
    · simp [lookupA, hk] at h
      intro hmem
      rcases List.mem_cons.1 hmem with heq | hmem'
      · exact hk (by rw [← heq])
      · exact ih h hmem'

/-! ### C1: the signing contract -/

theorem signMessage_eq (params : Params) (signed : List String) :
    signMessage params signed =
      (signed.map (fun k => writeKeyValuePair k (pget params k))).flatten := by
  have gen : ∀ (l : List String) (acc : List Char),
      l.foldl (fun a k => a ++ writeKeyValuePair k (pget params k)) acc =
        acc ++ (l.map (fun k => writeKeyValuePair k (pget params k))).flatten := by
    intro l
    induction l with
    | nil => intro acc; simp
    | cons x xs ih => intro acc; simp [ih, List.append_assoc]
  simpa [signMessage] using gen signed []

/-- C1: for an association typed HMAC-SHA1 or HMAC-SHA256, `sign` returns
the URL-safe base64 text of the corresponding keyed digest of the byte
sequence obtained by appending, for each signed field in order, the line
`field:value\n` with the value read from the parameter map (empty when
absent); for any other type it fails with the unsupported-type error. -/
theorem c1_sign (hm1 hm2 : List Nat → List Char → List Nat) (a : Association)
    (params : Params) (signed : List String) :
    (a.Typ = hmacSHA1 → Association.sign hm1 hm2 a params signed =
      .ok (base64UrlEncode (hm1 a.Secret
        ((signed.map (fun k => writeKeyValuePair k (pget params k))).flatten))).asString) ∧
    (a.Typ = hmacSHA256 → Association.sign hm1 hm2 a params signed =
      .ok (base64UrlEncode (hm2 a.Secret
        ((signed.map (fun k => writeKeyValuePair k (pget params k))).flatten))).asString) ∧
    (a.Typ ≠ hmacSHA1 → a.Typ ≠ hmacSHA256 →
      Association.sign hm1 hm2 a params signed = .error (.unsupportedAssocType a.Typ)) := by
  refine ⟨fun h1 => ?_, fun h2 => ?_, fun h1 h2 => ?_⟩
  · rw [Association.sign, if_pos h1, signMessage_eq]
  · have hne : a.Typ ≠ hmacSHA1 := by rw [h2]; decide
    rw [Association.sign, if_neg hne, if_pos h2, signMessage_eq]
  · rw [Association.sign, if_neg h1, if_neg h2]

theorem c1_sign_witness :
    Association.sign (fun key msg => key ++ msg.map Char.toNat) (fun _ _ => [])
      ⟨"", "hdl", [1, 2], "HMAC-SHA1", 0⟩ [("x", "y")] ["x", "z"] =
    .ok (base64UrlEncode ((fun (key : List Nat) (msg : List Char) => key ++ msg.map Char.toNat)
      [1, 2] ((["x", "z"].map
        (fun k => writeKeyValuePair k (pget [("x", "y")] k))).flatten))).asString :=
  (c1_sign _ _ _ _ _).1 rfl

/-! ### C10: ParseKeyValue rejects what EncodeKeyValue writes -/

theorem mem_of_breakAtChar_isSome (c : Char) : ∀ l : List Char,
    (breakAtChar c l).isSome → c ∈ l := by
  intro l
  induction l with
  | nil => intro h; simp [breakAtChar] at h
  | cons x xs ih =>
    intro h
    by_cases hx : x = c
    · simp [hx]
    · rw [breakAtChar, if_neg hx] at h
      rcases hbx : breakAtChar c xs with _ | pr2
      · rw [hbx] at h; simp at h
      · exact List.mem_cons_of_mem _ (ih (by rw [hbx]; rfl))

theorem parseLines_colon : ∀ (segs : List (List Char)) (acc m : Params),
    parseKeyValueLines segs acc = .ok m → ∀ seg ∈ segs, ':' ∈ seg := by
  intro segs
  induction segs with
  | nil => intro acc m _ seg hseg; simp at hseg
  | cons s rest ih =>
    intro acc m hok seg hseg
    rcases hb : breakAtChar ':' s with _ | pr
    · rw [parseKeyValueLines, hb] at hok
      exact absurd hok (by simp)
    · rw [parseKeyValueLines, hb] at hok
      rcases List.mem_cons.1 hseg with rfl | hmem
      · exact mem_of_breakAtChar_isSome ':' seg (by rw [hb]; rfl)
      · exact ih _ _ hok seg hmem

theorem splitSep_ne_nil (c : Char) : ∀ l : List Char, splitSep c l ≠ [] := by
  intro l
  induction l with
  | nil => simp [splitSep]
  | cons x xs ih =>
    rw [splitSep]
    rcases h : splitSep c xs with _ | ⟨seg, rest⟩
    · simp
    · by_cases hx : x = c <;> simp [hx]

theorem splitSep_append_last (c : Char) : ∀ l : List Char,
    splitSep c (l ++ [c]) = splitSep c l ++ [[]] := by
  intro l
  induction l with
  | nil =>
    simp [splitSep]
  | cons x xs ih =>
    rcases h : splitSep c xs with _ | ⟨seg, rest⟩
    · exact absurd h (splitSep_ne_nil c xs)
    · by_cases hx : x = c <;>
        simp [splitSep, ih, h, hx]

theorem encode_ends_newline : ∀ p : Params, p ≠ [] →
    ∃ l, EncodeKeyValue p = l ++ ['\n'] := by
  intro p
  induction p with
  | nil => intro h; exact absurd rfl h
  | cons kv rest ih =>
    intro _
    rcases rest with _ | ⟨kv2, rest2⟩
    · refine ⟨kv.1.data ++ ':' :: kv.2.data, ?_⟩
      simp [EncodeKeyValue, writeKeyValuePair]
    · obtain ⟨l, hl⟩ := ih (by simp)
      refine ⟨writeKeyValuePair kv.1 kv.2 ++ l, ?_⟩
      have : EncodeKeyValue (kv :: kv2 :: rest2) =
          writeKeyValuePair kv.1 kv.2 ++ EncodeKeyValue (kv2 :: rest2) := by
        simp [EncodeKeyValue]
      rw [this, hl, List.append_assoc]

/-- C10: `ParseKeyValue` succeeds only when every newline-separated
segment of the input, the one after the final newline included, contains
a colon; consequently parsing the exact bytes written by
`EncodeKeyValue` for a non-empty map always fails, since every line is
newline-terminated and the trailing empty segment has no colon. -/
theorem c10_keyvalue_roundtrip (body : List Char) (p : Params) :
    (∀ m, ParseKeyValue body = .ok m → ∀ seg ∈ splitSep '\n' body, ':' ∈ seg) ∧
    (p ≠ [] → ∀ m, ParseKeyValue (EncodeKeyValue p) ≠ .ok m) := by
  constructor
  · intro m hm seg hseg
    exact parseLines_colon _ _ _ hm seg hseg
  · intro hp m hm
    obtain ⟨l, hl⟩ := encode_ends_newline p hp
    have hmem : ([] : List Char) ∈ splitSep '\n' (EncodeKeyValue p) := by
      rw [hl, splitSep_append_last]
      simp
    have := parseLines_colon _ _ _ hm [] hmem
    simp at this

theorem c10_witness : ParseKeyValue (EncodeKeyValue [("a", "b")]) ≠ .ok [] :=
  (c10_keyvalue_roundtrip [] [("a", "b")]).2 (by decide) []

/-! ### C9: the handle-generation retry loop -/

theorem saveGo_all_dup {σ : Type} (ops : StoreOps σ) (a : Association)
    (hbytes : Nat → List Nat) (s : σ) :
    ∀ (fuel attempt : Nat),
      (∀ k, attempt ≤ k → k < attempt + fuel →
        ops.add s { a with Handle := encodeHandle (hbytes k) } = .error .duplicateAssociation) →
      saveAssociationGo ops a hbytes s attempt fuel = .error .cannotStoreAssociation := by
  intro fuel
  induction fuel with
  | zero => intro attempt _; rfl
  | succ n ih =>
    intro attempt hdup
    have h0 := hdup attempt le_rfl (by omega)
    rw [saveAssociationGo, h0]
    simp only [if_pos rfl]
    exact ih (attempt + 1) (fun k hk1 hk2 => hdup k (by omega) (by omega))

theorem saveGo_ok {σ : Type} (ops : StoreOps σ) (a : Association)
    (hbytes : Nat → List Nat) (s : σ) :
    ∀ (fuel attempt k : Nat) (s' : σ), attempt ≤ k → k < attempt + fuel →
      (∀ j, attempt ≤ j → j < k →
        ops.add s { a with Handle := encodeHandle (hbytes j) } = .error .duplicateAssociation) →
      ops.add s { a with Handle := encodeHandle (hbytes k) } = .ok s' →
      saveAssociationGo ops a hbytes s attempt fuel =
        .ok ({ a with Handle := encodeHandle (hbytes k) }, s') := by
  intro fuel
  induction fuel with
  | zero => intro attempt k s' h1 h2 _ _; omega
  | succ n ih =>
    intro attempt k s' h1 h2 hdup hok
    rcases Nat.eq_or_lt_of_le h1 with rfl | hlt
    · rw [saveAssociationGo, hok]
    · have h0 := hdup attempt le_rfl hlt
      rw [saveAssociationGo, h0]
      simp only [if_pos rfl]
      exact ih (attempt + 1) k s' (by omega) (by omega)
        (fun j hj1 hj2 => hdup j (by omega) hj2) hok

theorem saveGo_fatal {σ : Type} (ops : StoreOps σ) (a : Association)
    (hbytes : Nat → List Nat) (s : σ) :
    ∀ (fuel attempt k : Nat) (e : Err), attempt ≤ k → k < attempt + fuel →
      (∀ j, attempt ≤ j → j < k →
        ops.add s { a with Handle := encodeHandle (hbytes j) } = .error .duplicateAssociation) →
      ops.add s { a with Handle := encodeHandle (hbytes k) } = .error e →
      e ≠ .duplicateAssociation →
      saveAssociationGo ops a hbytes s attempt fuel = .error e := by
  intro fuel
  induction fuel with
  | zero => intro attempt k e h1 h2 _ _ _; omega
  | succ n ih =>
    intro attempt k e h1 h2 hdup herr hne
    rcases Nat.eq_or_lt_of_le h1 with rfl | hlt
    · rw [saveAssociationGo, herr]
      simp [hne]
    · have h0 := hdup attempt le_rfl hlt
      rw [saveAssociationGo, h0]
      simp only [if_pos rfl]
      exact ih (attempt + 1) k e (by omega) (by omega)
        (fun j hj1 hj2 => hdup j (by omega) hj2) herr hne

theorem saveGo_ok_inv {σ : Type} (ops : StoreOps σ) (a : Association)
    (hbytes : Nat → List Nat) (s : σ) :
    ∀ (fuel attempt : Nat) (a' : Association) (s' : σ),
      saveAssociationGo ops a hbytes s attempt fuel = .ok (a', s') →
      ∃ k, attempt ≤ k ∧ k < attempt + fuel ∧
        a' = { a with Handle := encodeHandle (hbytes k) } ∧ ops.add s a' = .ok s' := by
  intro fuel
  induction fuel with
  | zero => intro attempt a' s' h; exact absurd h (by simp [saveAssociationGo])
  | succ n ih =>
    intro attempt a' s' h
    rw [saveAssociationGo] at h
    rcases hadd : ops.add s { a with Handle := encodeHandle (hbytes attempt) } with e | s0
    · rw [hadd] at h
      by_cases he : e = .duplicateAssociation
      · subst he
        simp only [if_pos rfl] at h
        obtain ⟨k, hk1, hk2, hk3, hk4⟩ := ih (attempt + 1) a' s' h
        exact ⟨k, by omega, by omega, hk3, hk4⟩
      · simp [he] at h
    · rw [hadd] at h
      have h' : ({ a with Handle := encodeHandle (hbytes attempt) }, s0) = (a', s') := by
        simpa using h
      have ha : a' = { a with Handle := encodeHandle (hbytes attempt) } :=
        (congrArg Prod.fst h').symm
      have hs : s' = s0 := (congrArg Prod.snd h').symm
      subst ha
      subst hs
      exact ⟨attempt, le_rfl, by omega, rfl, hadd⟩

/-- C9: storing a fresh association makes at most ten attempts; each
attempt text-encodes 16 fresh random bytes as the handle and calls `Add`;
a duplicate report moves to the next attempt, any other store error fails
the operation immediately, ten duplicates fail it outright, and a
successful store (shown for the reference in-memory store) only ever
inserts a handle that was not already present for the endpoint. -/
theorem c9_save_association {σ : Type} (ops : StoreOps σ) (s : σ)
    (a : Association) (hbytes : Nat → List Nat) :
    ((∀ k, k < 10 →
        ops.add s { a with Handle := encodeHandle (hbytes k) } = .error .duplicateAssociation) →
      saveAssociation ops s a hbytes = .error .cannotStoreAssociation) ∧
    (∀ k, k < 10 →
      (∀ j, j < k →
        ops.add s { a with Handle := encodeHandle (hbytes j) } = .error .duplicateAssociation) →
      ∀ s', ops.add s { a with Handle := encodeHandle (hbytes k) } = .ok s' →
        saveAssociation ops s a hbytes = .ok ({ a with Handle := encodeHandle (hbytes k) }, s')) ∧
    (∀ k, k < 10 →
      (∀ j, j < k →
        ops.add s { a with Handle := encodeHandle (hbytes j) } = .error .duplicateAssociation) →
      ∀ e, ops.add s { a with Handle := encodeHandle (hbytes k) } = .error e →
        e ≠ .duplicateAssociation → saveAssociation ops s a hbytes = .error e) ∧
    (∀ (ms ms' : MemoryAssociationStore) (a0 a' : Association) (hb : Nat → List Nat),
      saveAssociation memOps ms a0 hb = .ok (a', ms') →
      memGet ms a0.Endpoint a'.Handle = none) := by
  refine ⟨?_, ?_, ?_, ?_⟩
  · intro hdup
    exact saveGo_all_dup ops a hbytes s 10 0 (fun k _ hk => hdup k (by omega))
  · intro k hk hdup s' hok
    exact saveGo_ok ops a hbytes s 10 0 k s' (by omega) (by omega)
      (fun j _ hj => hdup j hj) hok
  · intro k hk hdup e herr hne
    exact saveGo_fatal ops a hbytes s 10 0 k e (by omega) (by omega)
      (fun j _ hj => hdup j hj) herr hne
  · intro ms ms' a0 a' hb hsave
    obtain ⟨k, _, _, ha', hadd⟩ := saveGo_ok_inv memOps a0 hb ms 10 0 a' ms' hsave
    have hend : a'.Endpoint = a0.Endpoint := by rw [ha']
    rw [← hend]
    rcases hget : memGet ms a'.Endpoint a'.Handle with _ | b
    · rfl
    · exfalso
      change memAdd ms a' = .ok ms' at hadd
      simp [memAdd, hget] at hadd

theorem c9_witness :
    saveAssociation memOps ⟨[]⟩ ⟨"", "", [], "HMAC-SHA256", 0⟩
        (fun _ => List.replicate 16 0) =
      .ok (⟨"", "zzzz", [], "HMAC-SHA256", 0⟩,
        ⟨[("", [("zzzz", ⟨"", "zzzz", [], "HMAC-SHA256", 0⟩)])]⟩) := by
  have h := (c9_save_association memOps ⟨[]⟩ ⟨"", "", [], "HMAC-SHA256", 0⟩
      (fun _ => List.replicate 16 0)).2.1 0 (by omega)
      (fun j hj => absurd hj (Nat.not_lt_zero j))
      ⟨[("", [("zzzz", ⟨"", "zzzz", [], "HMAC-SHA256", 0⟩)])]⟩ (by decide)
  simpa using h

/-! ### Memory-store invariants and lemmas -/

/-- Well-formedness of a memory store state: both map levels have unique
keys and every stored association records the endpoint and handle it is
keyed under.  This is an invariant of every state reachable through
`Add`/`Delete`, which key entries by `a.Endpoint` and `a.Handle`. -/
def wfStore (s : MemoryAssociationStore) : Prop :=
  (s.m.map Prod.fst).Nodup ∧
    ∀ pe ∈ s.m, (pe.2.map Prod.fst).Nodup ∧
      ∀ pa ∈ pe.2, (pa.2 : Association).Endpoint = pe.1 ∧ pa.2.Handle = pa.1

instance wfStoreDecidable (s : MemoryAssociationStore) : Decidable (wfStore s) := by
  unfold wfStore
  infer_instance

theorem memGet_some_elim (s : MemoryAssociationStore) (e h : String)
    (a : Association) (hget : memGet s e h = some a) :
    ∃ inner, lookupA s.m e = some inner ∧ lookupA inner h = some a := by
  rw [memGet] at hget
  rcases hl : lookupA s.m e with _ | inner
  · rw [hl] at hget; exact absurd hget (by simp)
  · rw [hl] at hget; exact ⟨inner, rfl, hget⟩

theorem wf_handle_eq (s : MemoryAssociationStore) (e h : String)
    (a : Association) (hwf : wfStore s) (hget : memGet s e h = some a) :
    a.Endpoint = e ∧ a.Handle = h := by
  obtain ⟨inner, hl, hi⟩ := memGet_some_elim s e h a hget
  exact (hwf.2 (e, inner) (lookupA_mem _ _ _ hl)).2 (h, a) (lookupA_mem _ _ _ hi)

theorem memGet_memDelete_self (s : MemoryAssociationStore) (e h : String)
    (hwf : wfStore s) : memGet (memDelete s e h) e h = none := by
  rcases hget : memGet s e h with _ | a
  · rw [memDelete, hget]
    exact hget
  · obtain ⟨inner, hl, hi⟩ := memGet_some_elim s e h a hget
    rw [memDelete, hget, memGet]
    simp only [hl, Option.getD_some]
    rw [lookupA_setA_self]
    exact lookupA_eraseA_self inner h (hwf.2 (e, inner) (lookupA_mem _ _ _ hl)).1

theorem memAdd_get_self (s s' : MemoryAssociationStore) (a : Association)
    (hadd : memAdd s a = .ok s') : memGet s' a.Endpoint a.Handle = some a := by
  rw [memAdd] at hadd
  rcases hget : memGet s a.Endpoint a.Handle with _ | b
  · rw [hget] at hadd
    have hs' : s' = ⟨setA s.m a.Endpoint
        (setA ((lookupA s.m a.Endpoint).getD []) a.Handle a)⟩ :=
      (Except.ok.inj hadd).symm
    rw [hs', memGet, lookupA_setA_self]
    exact lookupA_setA_self _ _ _
  · rw [hget] at hadd
    exact absurd hadd (by simp)

theorem memAdd_get_other (s s' : MemoryAssociationStore) (a : Association)
    (h : String) (hne : h ≠ a.Handle) (hadd : memAdd s a = .ok s') :
    memGet s' a.Endpoint h = memGet s a.Endpoint h := by
  rw [memAdd] at hadd
  rcases hget : memGet s a.Endpoint a.Handle with _ | b
  · rw [hget] at hadd
    have hs' : s' = ⟨setA s.m a.Endpoint
        (setA ((lookupA s.m a.Endpoint).getD []) a.Handle a)⟩ :=
      (Except.ok.inj hadd).symm
    rw [hs', memGet, lookupA_setA_self]
    show lookupA (setA ((lookupA s.m a.Endpoint).getD []) a.Handle a) h =
      memGet s a.Endpoint h
    rw [lookupA_setA_ne _ _ _ _ hne]
    rcases hl : lookupA s.m a.Endpoint with _ | inner
    · simp [memGet, hl, lookupA]
    · simp [memGet, hl]
  · rw [hget] at hadd
    exact absurd hadd (by simp)

/-! ### C2: check_authentication behaviour -/

/-- C2: `check_authentication` never turns absence or mismatch into an
error.  With no association stored under the supplied handle it answers
`is_valid:false` leaving the store unchanged; when the recomputed
signature (assuming the stored type is signable, so recomputation
succeeds) differs from `sig` it answers `is_valid:false` leaving the
store unchanged; when it matches, the association is deleted and the
answer is `is_valid:true`, after which the identical call answers
`is_valid:false`. -/
theorem c2_check_authentication (hm1 hm2 : List Nat → List Char → List Nat)
    (s : MemoryAssociationStore) (params : Params) (hwf : wfStore s) :
    (memGet s "" (pget params "assoc_handle") = none →
      checkAuthentication hm1 hm2 memOps s params =
        .ok ([("ns", Namespace), ("is_valid", "false")], s)) ∧
    (∀ assoc sigv, memGet s "" (pget params "assoc_handle") = some assoc →
      Association.sign hm1 hm2 assoc params ((pget params "signed").splitOn ",") = .ok sigv →
      (pget params "sig" ≠ sigv →
        checkAuthentication hm1 hm2 memOps s params =
          .ok ([("ns", Namespace), ("is_valid", "false")], s)) ∧
      (pget params "sig" = sigv →
        checkAuthentication hm1 hm2 memOps s params =
          .ok ([("ns", Namespace), ("is_valid", "true")],
            memDelete s "" assoc.Handle) ∧
        checkAuthentication hm1 hm2 memOps (memDelete s "" assoc.Handle) params =
          .ok ([("ns", Namespace), ("is_valid", "false")],
            memDelete s "" assoc.Handle))) := by
  constructor
  · intro hget
    simp [checkAuthentication, memOps, hget]
  · intro assoc sigv hget hsign
    have hhdl : assoc.Handle = pget params "assoc_handle" :=
      (wf_handle_eq s "" _ assoc hwf hget).2
    constructor
    · intro hne
      simp [checkAuthentication, memOps, hget, hsign, hne]
    · intro heq
      constructor
      · simp [checkAuthentication, memOps, hget, hsign, heq]
      · have hnone : memGet (memDelete s "" assoc.Handle) ""
            (pget params "assoc_handle") = none := by
          rw [← hhdl]
          exact memGet_memDelete_self s "" assoc.Handle hwf
        simp [checkAuthentication, memOps, hnone]

theorem c2_witness :
    checkAuthentication (fun _ _ => []) (fun _ _ => []) memOps
        ⟨[("", [("h1", ⟨"", "h1", [], "HMAC-SHA256", 99⟩)])]⟩
        [("assoc_handle", "h1")] =
      .ok ([("ns", Namespace), ("is_valid", "true")], ⟨[("", [])]⟩) := by
  have h := ((c2_check_authentication (fun _ _ => []) (fun _ _ => [])
      ⟨[("", [("h1", ⟨"", "h1", [], "HMAC-SHA256", 99⟩)])]⟩
      [("assoc_handle", "h1")] (by decide)).2
      ⟨"", "h1", [], "HMAC-SHA256", 99⟩ "" (by decide) (by decide)).2 (by decide)
  have h1 := h.1
  simpa using h1

/-! ### C4: get-or-create of associations -/

/-- C4 (amended to non-empty requested handles): a stored association
under `("", handle)` is returned unchanged while the current time is
strictly before its expiry; otherwise (expired, in which case the stored
entry is deleted first, or absent) a fresh association is generated and
stored, carrying a 128-byte random secret, type HMAC-SHA256 and expiry
exactly one minute past the current time. -/
theorem c4_get_association (now : Int) (rng : Nat → Nat)
    (s : MemoryAssociationStore) (h nonce : String) (hh : h ≠ "")
    (hwf : wfStore s) :
    (∀ a, memGet s "" h = some a → now < a.Expires →
      getAssociation memOps s now rng h nonce = .ok (a, s)) ∧
    (∀ a' s', getAssociation memOps s now rng h nonce = .ok (a', s') →
      (∃ a, memGet s "" h = some a ∧ now < a.Expires ∧ a' = a ∧ s' = s) ∨
      (a'.Secret = (List.range 128).map rng ∧ a'.Secret.length = 128 ∧
        a'.Typ = hmacSHA256 ∧ a'.Expires = now + minuteNs ∧
        memGet s' "" a'.Handle = some a' ∧
        (∀ a, memGet s "" h = some a → ¬ now < a.Expires) ∧
        (a'.Handle = h ∨ memGet s' "" h = none))) := by
  constructor
  · intro a hget hexp
    rw [getAssociation, if_pos hh]
    show (match memOps.get s "" h with
      | .error e => .error e
      | .ok (some a) => if now < a.Expires then .ok (a, s) else _
      | .ok none => _) = Except.ok (a, s)
    simp only [memOps, hget]
    rw [if_pos hexp]
  · intro a' s' hrun
    rw [getAssociation, if_pos hh] at hrun
    rcases hget : memGet s "" h with _ | a
    · -- absent: fresh generation on the unchanged store
      right
      simp only [memOps, hget] at hrun
      obtain ⟨k, _, _, ha', hadd⟩ :=
        saveGo_ok_inv memOps _ _ s 10 0 a' s' hrun
      have hfields : a'.Secret = (List.range 128).map rng ∧
          a'.Typ = hmacSHA256 ∧ a'.Expires = now + minuteNs ∧
          a'.Endpoint = "" := by rw [ha']; exact ⟨rfl, rfl, rfl, rfl⟩
      have hadd' : memAdd s a' = .ok s' := hadd
      refine ⟨hfields.1, by rw [hfields.1]; simp, hfields.2.1, hfields.2.2.1, ?_, ?_, ?_⟩
      · have := memAdd_get_self s s' a' hadd'
        rwa [hfields.2.2.2] at this
      · intro a ha; exact absurd ha (by simp)
      · by_cases hhd : a'.Handle = h
        · exact Or.inl hhd
        · right
          have := memAdd_get_other s s' a' h (fun hc => hhd hc.symm) hadd'
          rw [hfields.2.2.2] at this
          rw [this, hget]
    · rcases hexp : decide (now < a.Expires) with _ | _
      · -- expired: deleted, then fresh generation
        right
        have hexp' : ¬ now < a.Expires := of_decide_eq_false hexp
        simp only [memOps, hget, if_neg hexp'] at hrun
        obtain ⟨k, _, _, ha', hadd⟩ :=
          saveGo_ok_inv memOps _ _ (memDelete s "" h) 10 0 a' s' hrun
        have hfields : a'.Secret = (List.range 128).map rng ∧
            a'.Typ = hmacSHA256 ∧ a'.Expires = now + minuteNs ∧
            a'.Endpoint = "" := by rw [ha']; exact ⟨rfl, rfl, rfl, rfl⟩
        have hadd' : memAdd (memDelete s "" h) a' = .ok s' := hadd
        refine ⟨hfields.1, by rw [hfields.1]; simp, hfields.2.1, hfields.2.2.1, ?_, ?_, ?_⟩
        · have := memAdd_get_self _ s' a' hadd'
          rwa [hfields.2.2.2] at this
        · intro a2 ha2
          have heq : a = a2 := Option.some.inj ha2
          rw [← heq]
          exact hexp'
        · by_cases hhd : a'.Handle = h
          · exact Or.inl hhd
          · right
            have hpres := memAdd_get_other _ s' a' h (fun hc => hhd hc.symm) hadd'
            rw [hfields.2.2.2] at hpres
            rw [hpres]
            exact memGet_memDelete_self s "" h hwf
      · -- unexpired: returned unchanged
        left
        have hexp' : now < a.Expires := of_decide_eq_true hexp
        simp only [memOps, hget, if_pos hexp'] at hrun
        have hpair : (a, s) = (a', s') := Except.ok.inj hrun
        exact ⟨a, rfl, hexp', (congrArg Prod.fst hpair).symm,
          (congrArg Prod.snd hpair).symm⟩

theorem c4_witness :
    getAssociation memOps ⟨[("", [("h1", ⟨"", "h1", [5], "HMAC-SHA256", 100⟩)])]⟩
        0 (fun _ => 0) "h1" "" =
      .ok (⟨"", "h1", [5], "HMAC-SHA256", 100⟩,
        ⟨[("", [("h1", ⟨"", "h1", [5], "HMAC-SHA256", 100⟩)])]⟩) :=
  (c4_get_association 0 (fun _ => 0)
      ⟨[("", [("h1", ⟨"", "h1", [5], "HMAC-SHA256", 100⟩)])]⟩ "h1" ""
      (by decide) (by decide)).1
    ⟨"", "h1", [5], "HMAC-SHA256", 100⟩ (by decide) (by decide)

/-- C4 counterexample to the claim as stated over every requested handle:
with the empty handle requested and an unexpired association stored under
`("", "")`, `getAssociation` does not return the stored association (the
lookup branch requires a non-empty handle) but generates and stores a
fresh one. -/
theorem c4_counterexample :
    getAssociation memOps ⟨[("", [("", ⟨"", "", [1], "HMAC-SHA1", 100⟩)])]⟩
        0 (fun _ => 0) "" "" =
      .ok (⟨"", "zzzz", List.replicate 128 0, "HMAC-SHA256", 60000000000⟩,
        ⟨[("", [("", ⟨"", "", [1], "HMAC-SHA1", 100⟩),
          ("zzzz", ⟨"", "zzzz", List.replicate 128 0, "HMAC-SHA256", 60000000000⟩)])]⟩) ∧
    (⟨"", "zzzz", List.replicate 128 0, "HMAC-SHA256", 60000000000⟩ : Association) ≠
      ⟨"", "", [1], "HMAC-SHA1", 100⟩ ∧
    memGet ⟨[("", [("", ⟨"", "", [1], "HMAC-SHA1", 100⟩)])]⟩ "" "" =
      some ⟨"", "", [1], "HMAC-SHA1", 100⟩ ∧
    ((0 : Int) < 100) := by
  refine ⟨by decide, by decide, by decide, by decide⟩

/-! ### C6: the dispatcher does not stop on a bad `ns` -/

/-- C6 evaluation at the failing input: with `ns` not the protocol
namespace and `mode=associate`, the dispatcher emits the unknown-ns error
response and then still executes the associate action, emitting its
response as well — the `ns` check in `ServeHTTP` lacks a `return`, so the
mode switch runs regardless. -/
theorem c6_dispatch_bug_eval :
    (serveHTTP (fun _ _ => []) (fun _ _ => []) ⟨none⟩ memOps 0 (fun _ => 0)
        (fun _ => "") ⟨[]⟩ [("ns", "x"), ("mode", "associate")]).1 =
      [Event.direct (.error (.unknownNs "x")),
       Event.direct (.error (.unsupportedSessionType ""))] := by decide

/-! ### Signing depends only on the signed fields -/

theorem signMessage_congr (p1 p2 : Params) (signed : List String)
    (h : ∀ k ∈ signed, pget p1 k = pget p2 k) :
    signMessage p1 signed = signMessage p2 signed := by
  rw [signMessage_eq, signMessage_eq]
  congr 1
  exact List.map_congr_left (fun k hk => by rw [h k hk])

theorem sign_congr (hm1 hm2 : List Nat → List Char → List Nat)
    (a : Association) (p1 p2 : Params) (signed : List String)
    (h : ∀ k ∈ signed, pget p1 k = pget p2 k) :
    Association.sign hm1 hm2 a p1 signed = Association.sign hm1 hm2 a p2 signed := by
  rw [Association.sign, Association.sign, signMessage_congr p1 p2 signed h]

/-! ### Extension encoding touches only dotted keys -/

theorem emitExtension_fst_lookup (pfx : String) (ext : Extension) (k : String)
    (hk : '.' ∉ k.data) (ps : Params) (signed : List String) :
    lookupA (emitExtension pfx ext ps signed).1 k = lookupA ps k := by
  have hne0 : k ≠ "ns." ++ pfx := by
    intro hc
    refine hk ?_
    rw [hc]
    simp
  have hgen : ∀ (l : Params) (ps0 : Params) (sg : List String),
      lookupA (l.foldl (fun acc kv =>
        (setA acc.1 (pfx ++ "." ++ kv.1) kv.2, acc.2 ++ [pfx ++ "." ++ kv.1]))
        (ps0, sg)).1 k = lookupA ps0 k := by
    intro l
    induction l with
    | nil => intro ps0 sg; rfl
    | cons kv rest ih =>
      intro ps0 sg
      rw [List.foldl_cons, ih]
      refine lookupA_setA_ne _ _ _ _ ?_
      intro hc
      refine hk ?_
      rw [hc]
      simp
  have heq : emitExtension pfx ext ps signed =
      ext.Params.foldl (fun acc kv =>
        (setA acc.1 (pfx ++ "." ++ kv.1) kv.2, acc.2 ++ [pfx ++ "." ++ kv.1]))
        (setA ps ("ns." ++ pfx) ext.Namespace, signed) := rfl
  rw [heq, hgen]
  exact lookupA_setA_ne _ _ _ _ hne0

theorem encodeExtGo_fst_lookup (k : String) (hk : '.' ∉ k.data) :
    ∀ (exts : List Extension) (used : List String) (i : Nat) (ps : Params)
      (signed : List String),
      lookupA (encodeExtGo exts used i ps signed).1 k = lookupA ps k := by
  intro exts
  induction exts with
  | nil => intro used i ps signed; rfl
  | cons ext rest ih =>
    intro used i ps signed
    rcases hch : choosePfxAux used (used.length + 2) ext.Pfx i with _ | ⟨pfx, i'⟩
    · have heq : encodeExtGo (ext :: rest) used i ps signed = (ps, signed) := by
        rw [encodeExtGo, hch]
      rw [heq]
    · have heq : encodeExtGo (ext :: rest) used i ps signed =
          encodeExtGo rest (pfx :: used) i'
            (emitExtension pfx ext ps signed).1
            (emitExtension pfx ext ps signed).2 := by
        rw [encodeExtGo, hch]
      rw [heq, ih, emitExtension_fst_lookup pfx ext k hk]

theorem emitExtension_snd_mem (pfx : String) (ext : Extension) (x : String)
    (ps : Params) (signed : List String)
    (hx : x ∈ (emitExtension pfx ext ps signed).2) :
    x ∈ signed ∨ '.' ∈ x.data := by
  have hgen : ∀ (l : Params) (ps0 : Params) (sg : List String),
      x ∈ (l.foldl (fun acc kv =>
        (setA acc.1 (pfx ++ "." ++ kv.1) kv.2, acc.2 ++ [pfx ++ "." ++ kv.1]))
        (ps0, sg)).2 → x ∈ sg ∨ '.' ∈ x.data := by
    intro l
    induction l with
    | nil => intro ps0 sg h; exact Or.inl h
    | cons kv rest ih =>
      intro ps0 sg h
      rw [List.foldl_cons] at h
      rcases ih _ _ h with hmem | hdot
      · rcases List.mem_append.1 hmem with hmem' | hsing
        · exact Or.inl hmem'
        · right
          have hxe : x = pfx ++ "." ++ kv.1 := by simpa using hsing
          rw [hxe]
          simp
      · exact Or.inr hdot
  exact hgen ext.Params _ signed hx

theorem encodeExtGo_snd_mem (x : String) :
    ∀ (exts : List Extension) (used : List String) (i : Nat) (ps : Params)
      (signed : List String),
      x ∈ (encodeExtGo exts used i ps signed).2 → x ∈ signed ∨ '.' ∈ x.data := by
  intro exts
  induction exts with
  | nil => intro used i ps signed hx; exact Or.inl hx
  | cons ext rest ih =>
    intro used i ps signed hx
    rcases hch : choosePfxAux used (used.length + 2) ext.Pfx i with _ | ⟨pfx, i'⟩
    · have heq : encodeExtGo (ext :: rest) used i ps signed = (ps, signed) := by
        rw [encodeExtGo, hch]
      rw [heq] at hx
      exact Or.inl hx
    · have heq : encodeExtGo (ext :: rest) used i ps signed =
          encodeExtGo rest (pfx :: used) i'
            (emitExtension pfx ext ps signed).1
            (emitExtension pfx ext ps signed).2 := by
        rw [encodeExtGo, hch]
      rw [heq] at hx
      rcases ih _ _ _ _ hx with hmem | hdot
      · exact emitExtension_snd_mem pfx ext x ps signed hmem
      · exact Or.inr hdot

/-! ### C5: the assertion a successful login signs -/

theorem sign_ok_of_type (hm1 hm2 : List Nat → List Char → List Nat)
    (a : Association) (p : Params) (sl : List String)
    (h : a.Typ = hmacSHA1 ∨ a.Typ = hmacSHA256) :
    ∃ sv, Association.sign hm1 hm2 a p sl = .ok sv := by
  rcases h with h | h
  · exact ⟨_, by rw [Association.sign, if_pos h]⟩
  · have hne : a.Typ ≠ hmacSHA1 := by rw [h]; decide
    exact ⟨_, by rw [Association.sign, if_neg hne, if_pos h]⟩

theorem prod_ite {α β : Type} (c : Prop) [Decidable c] (a a' : α) (b b' : β) :
    (if c then (a, b) else (a', b')) = (if c then a else a', if c then b else b') := by
  split <;> rfl

theorem ite_append_right {α : Type} (c : Prop) [Decidable c] (l x : List α) :
    (if c then l ++ x else l) = l ++ (if c then x else []) := by
  split <;> simp

theorem login_reaches_build {σ : Type} (hm1 hm2 : List Nat → List Char → List Nat)
    (hnd : Handler) (ops : StoreOps σ) (now : Int) (rng : Nat → Nat)
    (fmtTime : Int → String) (s : σ) (params : Params) (f : LoginFn)
    (req : LoginRequest) (rsp : LoginResponse) (b : Bool) (err0 : Option Err)
    (hreq : parseLoginRequest params = .ok req)
    (hcollab : hnd.loginFn = some f)
    (hmode : (pget params "mode" = "checkid_immediate" ∧ b = false) ∨
      (pget params "mode" = "checkid_setup" ∧ b = true))
    (hrun : f b req = (some rsp, err0))
    (herr : err0 = none ∨ err0 = some .unauthenticated) :
    login hm1 hm2 hnd ops now rng fmtTime s params =
      buildAssertion hm1 hm2 ops now rng fmtTime s params rsp := by
  rcases hmode with ⟨hm, rfl⟩ | ⟨hm, rfl⟩ <;>
    rcases herr with rfl | rfl <;>
    simp [login, hreq, hm, hcollab, hrun]

theorem buildAssertion_eq {σ : Type} (hm1 hm2 : List Nat → List Char → List Nat)
    (ops : StoreOps σ) (now : Int) (rng : Nat → Nat) (fmtTime : Int → String)
    (s s2 : σ) (params : Params) (rsp : LoginResponse) (assoc : Association)
    (sigv : String)
    (hrt : pget params "return_to" ≠ "")
    (hassoc : getAssociation ops s now (fun t => rng (16 + t))
      (pget params "assoc_handle")
      (getNonce fmtTime now ((List.range 16).map rng)) = .ok (assoc, s2))
    (hsigv : Association.sign hm1 hm2 assoc
      (assertParams params rsp assoc (getNonce fmtTime now ((List.range 16).map rng)))
      (assertSignedList params rsp assoc (getNonce fmtTime now ((List.range 16).map rng))) = .ok sigv) :
    buildAssertion hm1 hm2 ops now rng fmtTime s params rsp =
      ([.indirectRedirect (pget params "return_to")
        (.ok (setA (assertParams params rsp assoc (getNonce fmtTime now ((List.range 16).map rng))) "sig" sigv))], s2) := by
  rw [buildAssertion, if_neg hrt]
  simp only [hassoc]
  rw [prod_ite, prod_ite]
  simp only [assertParams, assertSignedList, assertSignedBase, assertRp3] at hsigv ⊢
  rw [ite_append_right, ite_append_right]
  rw [hsigv]
  simp only [indirectR, if_neg hrt]

theorem assertSignedBase_mem (rsp : LoginResponse) (k : String)
    (hk : k ∈ assertSignedBase rsp) :
    k = "op_endpoint" ∨ k = "return_to" ∨ k = "response_nonce" ∨
      k = "assoc_handle" ∨ k = "claimed_id" ∨ k = "identity" := by
  rw [assertSignedBase] at hk
  rcases List.mem_append.1 hk with h | h
  · rcases List.mem_append.1 h with h | h
    · simp at h
      tauto
    · split at h <;> simp at h <;> tauto
  · split at h <;> simp at h <;> tauto

theorem assertRp3_lookup_skip (params : Params) (rsp : LoginResponse)
    (assoc : Association) (nonce : String) (k : String)
    (h1 : k ≠ "claimed_id") (h2 : k ≠ "identity") (h3 : k ≠ "invalidate_handle") :
    lookupA (assertRp3 params rsp assoc nonce) k =
      lookupA [("ns", Namespace), ("mode", "id_res"),
        ("return_to", pget params "return_to"), ("op_endpoint", rsp.OPEndpoint),
        ("response_nonce", nonce), ("assoc_handle", assoc.Handle)] k := by
  by_cases c1 : rsp.ClaimedID ≠ "" <;> by_cases c2 : rsp.Identity ≠ "" <;>
    by_cases c3 : pget params "assoc_handle" ≠ "" ∧ pget params "assoc_handle" ≠ assoc.Handle <;>
    simp [assertRp3, c1, c2, c3, lookupA_setA_ne _ _ _ _ h1,
      lookupA_setA_ne _ _ _ _ h2, lookupA_setA_ne _ _ _ _ h3]

/-- C5: whenever the login flow reaches assertion building with a
produced response (request parsed, collaborator produced a response with
no fatal error, non-empty return_to, association obtained, signable
type), the emitted response is a single indirect redirect whose signed
list is exactly op_endpoint, return_to, response_nonce, assoc_handle,
then claimed_id and identity when non-empty, then the extension-encoded
field names in emission order; it carries ns, mode=id_res, the
comma-joined signed field, and sig equal to the 4.1 signature computed
over exactly that list. -/
theorem c5_login_assertion {σ : Type} (hm1 hm2 : List Nat → List Char → List Nat)
    (hnd : Handler) (ops : StoreOps σ) (now : Int) (rng : Nat → Nat)
    (fmtTime : Int → String) (s s2 : σ) (params : Params) (f : LoginFn)
    (req : LoginRequest) (rsp : LoginResponse) (b : Bool) (err0 : Option Err)
    (assoc : Association)
    (hreq : parseLoginRequest params = .ok req)
    (hcollab : hnd.loginFn = some f)
    (hmode : (pget params "mode" = "checkid_immediate" ∧ b = false) ∨
      (pget params "mode" = "checkid_setup" ∧ b = true))
    (hrun : f b req = (some rsp, err0))
    (herr : err0 = none ∨ err0 = some .unauthenticated)
    (hrt : pget params "return_to" ≠ "")
    (hassoc : getAssociation ops s now (fun t => rng (16 + t))
      (pget params "assoc_handle")
      (getNonce fmtTime now ((List.range 16).map rng)) = .ok (assoc, s2))
    (hsig : assoc.Typ = hmacSHA1 ∨ assoc.Typ = hmacSHA256) :
    ∃ fp sigv,
      fp = setA (assertParams params rsp assoc
          (getNonce fmtTime now ((List.range 16).map rng))) "sig" sigv ∧
      login hm1 hm2 hnd ops now rng fmtTime s params =
        ([.indirectRedirect (pget params "return_to") (.ok fp)], s2) ∧
      pget fp "ns" = Namespace ∧
      pget fp "mode" = "id_res" ∧
      pget fp "signed" = String.intercalate ","
        (assertSignedList params rsp assoc
          (getNonce fmtTime now ((List.range 16).map rng))) ∧
      pget fp "sig" = sigv ∧
      Association.sign hm1 hm2 assoc fp
        (assertSignedList params rsp assoc
          (getNonce fmtTime now ((List.range 16).map rng))) = .ok sigv := by
  obtain ⟨sigv, hsigv⟩ := sign_ok_of_type hm1 hm2 assoc
    (assertParams params rsp assoc (getNonce fmtTime now ((List.range 16).map rng)))
    (assertSignedList params rsp assoc (getNonce fmtTime now ((List.range 16).map rng)))
    hsig
  have hlogin := login_reaches_build hm1 hm2 hnd ops now rng fmtTime s params
    f req rsp b err0 hreq hcollab hmode hrun herr
  have hbuild := buildAssertion_eq hm1 hm2 ops now rng fmtTime s s2 params rsp
    assoc sigv hrt hassoc hsigv
  have hsafe : ∀ k ∈ assertSignedList params rsp assoc
      (getNonce fmtTime now ((List.range 16).map rng)), k ≠ "sig" := by
    intro k hk
    rw [assertSignedList] at hk
    rcases List.mem_append.1 hk with hbase | hext
    · rcases assertSignedBase_mem rsp k hbase with h | h | h | h | h | h <;>
        (rw [h]; decide)
    · rw [encodeExtensions] at hext
      rcases encodeExtGo_snd_mem k rsp.Extensions [] 0 _ [] hext with hmem | hdot
      · simp at hmem
      · intro hc
        rw [hc] at hdot
        simp at hdot
  have hcongr : ∀ k ∈ assertSignedList params rsp assoc
      (getNonce fmtTime now ((List.range 16).map rng)),
      pget (setA (assertParams params rsp assoc
        (getNonce fmtTime now ((List.range 16).map rng))) "sig" sigv) k =
      pget (assertParams params rsp assoc
        (getNonce fmtTime now ((List.range 16).map rng))) k := by
    intro k hk
    rw [pget, pget, lookupA_setA_ne _ _ _ _ (hsafe k hk)]
  refine ⟨_, sigv, rfl, ?_, ?_, ?_, ?_, ?_, ?_⟩
  · rw [hlogin, hbuild]
  · rw [pget, lookupA_setA_ne _ _ _ _ (by decide), assertParams,
      lookupA_setA_ne _ _ _ _ (by decide), encodeExtensions,
      encodeExtGo_fst_lookup "ns" (by decide),
      assertRp3_lookup_skip _ _ _ _ _ (by decide) (by decide) (by decide)]
    simp [lookupA]
  · rw [pget, lookupA_setA_ne _ _ _ _ (by decide), assertParams,
      lookupA_setA_ne _ _ _ _ (by decide), encodeExtensions,
      encodeExtGo_fst_lookup "mode" (by decide),
      assertRp3_lookup_skip _ _ _ _ _ (by decide) (by decide) (by decide)]
    simp [lookupA]
  · rw [pget, lookupA_setA_ne _ _ _ _ (by decide), assertParams, lookupA_setA_self]
    rfl
  · rw [pget, lookupA_setA_self]
    rfl
  · rw [sign_congr hm1 hm2 assoc _ _ _ hcongr]
    exact hsigv


theorem c5_witness :
    ∃ fp sigv,
      fp = setA (assertParams [("mode", "checkid_setup"), ("return_to", "http://rp/")]
          ⟨"", "", "http://op/", []⟩
          ⟨"", "zzzz", List.replicate 128 0, "HMAC-SHA256", 60000000000⟩
          (getNonce (fun _ => "") 0 ((List.range 16).map (fun _ => 0)))) "sig" sigv ∧
      login (fun _ _ => []) (fun _ _ => [])
          ⟨some (fun _ _ => (some ⟨"", "", "http://op/", []⟩, none))⟩ memOps 0
          (fun _ => 0) (fun _ => "") ⟨[]⟩
          [("mode", "checkid_setup"), ("return_to", "http://rp/")] =
        ([.indirectRedirect "http://rp/" (.ok fp)],
          ⟨[("", [("zzzz", ⟨"", "zzzz", List.replicate 128 0, "HMAC-SHA256", 60000000000⟩)])]⟩) ∧
      pget fp "ns" = Namespace ∧
      pget fp "mode" = "id_res" ∧
      pget fp "signed" = String.intercalate ","
        (assertSignedList [("mode", "checkid_setup"), ("return_to", "http://rp/")]
          ⟨"", "", "http://op/", []⟩
          ⟨"", "zzzz", List.replicate 128 0, "HMAC-SHA256", 60000000000⟩
          (getNonce (fun _ => "") 0 ((List.range 16).map (fun _ => 0)))) ∧
      pget fp "sig" = sigv ∧
      Association.sign (fun _ _ => []) (fun _ _ => [])
        ⟨"", "zzzz", List.replicate 128 0, "HMAC-SHA256", 60000000000⟩ fp
        (assertSignedList [("mode", "checkid_setup"), ("return_to", "http://rp/")]
          ⟨"", "", "http://op/", []⟩
          ⟨"", "zzzz", List.replicate 128 0, "HMAC-SHA256", 60000000000⟩
          (getNonce (fun _ => "") 0 ((List.range 16).map (fun _ => 0)))) = .ok sigv := by
  have h := c5_login_assertion (fun _ _ => []) (fun _ _ => [])
    ⟨some (fun _ _ => (some ⟨"", "", "http://op/", []⟩, none))⟩ memOps 0
    (fun _ => 0) (fun _ => "") ⟨[]⟩
    ⟨[("", [("zzzz", ⟨"", "zzzz", List.replicate 128 0, "HMAC-SHA256", 60000000000⟩)])]⟩
    [("mode", "checkid_setup"), ("return_to", "http://rp/")]
    (fun _ _ => (some ⟨"", "", "http://op/", []⟩, none))
    ⟨"", "", "http://rp/", "", []⟩ ⟨"", "", "http://op/", []⟩ true none
    ⟨"", "zzzz", List.replicate 128 0, "HMAC-SHA256", 60000000000⟩
    (by decide) rfl (Or.inr ⟨by decide, rfl⟩) rfl (Or.inl rfl) (by decide)
    (by decide) (Or.inr rfl)
  simpa using h


/-! ### C7: extension parsing -/

theorem breakAtChar_some (c : Char) : ∀ (l pre post : List Char),
    breakAtChar c l = some (pre, post) ↔ (c ∉ pre ∧ l = pre ++ c :: post) := by
  intro l
  induction l with
  | nil =>
    intro pre post
    simp [breakAtChar]
  | cons x xs ih =>
    intro pre post
    by_cases hx : x = c
    · subst hx
      rw [breakAtChar, if_pos rfl]
      constructor
      · intro h
        have h' : ([], xs) = (pre, post) := by simpa using h
        have h1 : pre = [] := (congrArg Prod.fst h').symm
        have h2 : post = xs := (congrArg Prod.snd h').symm
        subst h1
        subst h2
        exact ⟨by simp, rfl⟩
      · rintro ⟨hc, heq⟩
        rcases pre with _ | ⟨y, pre'⟩
        · simp at heq
          rw [heq]
        · exfalso
          have hcy : x = y := by simpa using congrArg List.head? heq
          exact hc (by rw [← hcy]; exact List.mem_cons_self _ _)
    · rw [breakAtChar, if_neg hx]
      constructor
      · intro h
        rcases hb : breakAtChar c xs with _ | pr
        · rw [hb] at h; simp at h
        · rw [hb] at h
          simp at h
          obtain ⟨h1, h2⟩ := h
          obtain ⟨hc, heq⟩ := (ih pr.1 pr.2).1 (by rw [hb])
          constructor
          · rw [← h1]
            intro hmem
            rcases List.mem_cons.1 hmem with heq' | hmem'
            · exact hx heq'.symm
            · exact hc hmem'
          · rw [← h1, ← h2, heq]
            simp
      · rintro ⟨hc, heq⟩
        rcases pre with _ | ⟨y, pre'⟩
        · exfalso
          simp at heq
          exact hx heq.1
        · have hy : x = y := by simpa using congrArg List.head? heq
          subst hy
          have htl : xs = pre' ++ c :: post := by
            have := congrArg List.tail heq
            simpa using this
          have hc' : c ∉ pre' := fun hm => hc (List.mem_cons_of_mem _ hm)
          rw [(ih pre' post).2 ⟨hc', htl⟩]
          rfl

theorem splitKey_some (k a b : String) :
    splitKey k = some (a, b) ↔ ('.' ∉ a.data ∧ k.data = a.data ++ '.' :: b.data) := by
  rw [splitKey]
  constructor
  · intro h
    rcases hb : breakAtChar '.' k.data with _ | ⟨pre, post⟩
    · rw [hb] at h; simp at h
    · rw [hb] at h
      obtain ⟨hc, heq⟩ := (breakAtChar_some '.' k.data pre post).1 hb
      have h' : (pre.asString, post.asString) = (a, b) := by simpa using h
      have ha2 : pre.asString = a := congrArg Prod.fst h'
      have hb2 : post.asString = b := congrArg Prod.snd h'
      have ha : a.data = pre := by rw [← ha2]; rfl
      have hbd : b.data = post := by rw [← hb2]; rfl
      rw [ha, hbd]
      exact ⟨hc, heq⟩
  · rintro ⟨hc, heq⟩
    rw [(breakAtChar_some '.' k.data a.data b.data).2 ⟨hc, heq⟩]
    simp [List.asString]

theorem splitKey_ns (k p : String) :
    splitKey k = some ("ns", p) ↔ k = "ns." ++ p := by
  rw [splitKey_some]
  constructor
  · rintro ⟨-, heq⟩
    apply String.ext
    rw [heq]
    rfl
  · intro h
    subst h
    exact ⟨by decide, rfl⟩

theorem nsKey_inj (p1 p2 : String) (h : "ns." ++ p1 = "ns." ++ p2) : p1 = p2 := by
  have := congrArg String.data h
  simp at this
  exact String.ext this

theorem mem_setA {β : Type} : ∀ (l : List (String × β)) (k : String) (v : β)
    (pr : String × β), pr ∈ setA l k v → pr ∈ l ∨ pr = (k, v) := by
  intro l k v pr
  induction l with
  | nil =>
    intro h
    simp [setA] at h
    right
    exact h
  | cons kv rest ih =>
    obtain ⟨k0, v0⟩ := kv
    intro h
    by_cases hk : k0 = k
    · rw [setA, if_pos hk] at h
      rcases List.mem_cons.1 h with rfl | hm
      · right; rw [hk]
      · left; exact List.mem_cons_of_mem _ hm
    · rw [setA, if_neg hk] at h
      rcases List.mem_cons.1 h with rfl | hm
      · left; exact List.mem_cons_self _ _
      · rcases ih hm with hm' | rfl
        · left; exact List.mem_cons_of_mem _ hm'
        · right; rfl

theorem setA_keys_nodup {β : Type} (l : List (String × β)) (k : String) (v : β)
    (h : (l.map Prod.fst).Nodup) : ((setA l k v).map Prod.fst).Nodup := by
  induction l with
  | nil => simp [setA]
  | cons kv rest ih =>
    obtain ⟨k0, v0⟩ := kv
    simp only [List.map_cons, List.nodup_cons] at h
    by_cases hk : k0 = k
    · rw [setA, if_pos hk]
      simp only [List.map_cons, List.nodup_cons]
      exact ⟨h.1, h.2⟩
    · rw [setA, if_neg hk]
      simp only [List.map_cons, List.nodup_cons]
      refine ⟨?_, ih h.2⟩
      intro hmem
      rcases List.mem_map.1 hmem with ⟨pr, hpr, hfst⟩
      rcases mem_setA rest k v pr hpr with hmem' | rfl
      · exact h.1 (hfst ▸ List.mem_map_of_mem Prod.fst hmem')
      · exact hk hfst.symm

theorem mem_lookupA_of_nodup {β : Type} (l : List (String × β)) (k : String) (v : β)
    (hnd : (l.map Prod.fst).Nodup) (hmem : (k, v) ∈ l) : lookupA l k = some v := by
  induction l with
  | nil => simp at hmem
  | cons kv rest ih =>
    simp only [List.map_cons, List.nodup_cons] at hnd
    rcases List.mem_cons.1 hmem with rfl | hmem'
    · simp [lookupA]
    · have hne : kv.1 ≠ k := by
        intro hc
        exact hnd.1 (hc ▸ List.mem_map_of_mem Prod.fst hmem')
      simp [lookupA, hne, ih hnd.2 hmem']

/-! ### C7 infrastructure: the two parsing passes -/

theorem buildPrefixMaps_step (k v : String) (tl : List (String × String))
    (pfxs nss : Params) (pfx : String) (hsp : splitKey k = some ("ns", pfx)) :
    buildPrefixMaps ((k, v) :: tl) pfxs nss =
      (if pfx ∈ bannedPrefixes then .error (.nsPrefixNotAllowed pfx)
       else if (lookupA pfxs pfx).getD v ≠ v then .error (.nsPrefixConflict pfx)
       else if (lookupA nss v).getD pfx ≠ pfx then .error (.namespaceConflict v)
       else buildPrefixMaps tl (setA pfxs pfx v) (setA nss v pfx)) := by
  rw [buildPrefixMaps, hsp]
  exact if_neg (by decide)

theorem buildPrefixMaps_skip_none (k v : String) (tl : List (String × String))
    (pfxs nss : Params) (hsp : splitKey k = none) :
    buildPrefixMaps ((k, v) :: tl) pfxs nss = buildPrefixMaps tl pfxs nss := by
  rw [buildPrefixMaps, hsp]

theorem buildPrefixMaps_skip_other (k v : String) (tl : List (String × String))
    (pfxs nss : Params) (p0 pfx : String) (hsp : splitKey k = some (p0, pfx))
    (hp0 : p0 ≠ "ns") :
    buildPrefixMaps ((k, v) :: tl) pfxs nss = buildPrefixMaps tl pfxs nss := by
  rw [buildPrefixMaps, hsp]
  exact if_pos hp0


theorem bpm_error_of_banned : ∀ (l : List (String × String)) (pfxs nss : Params),
    (∃ kv ∈ l, ∃ p, splitKey kv.1 = some ("ns", p) ∧ p ∈ bannedPrefixes) →
    ∃ e, buildPrefixMaps l pfxs nss = .error e := by
  intro l
  induction l with
  | nil =>
    rintro pfxs nss ⟨kv, hkv, -⟩
    simp at hkv
  | cons hd tl ih =>
    rintro pfxs nss ⟨kv, hkv, p, hsplit, hban⟩
    obtain ⟨k, v⟩ := hd
    rcases hsp : splitKey k with _ | ⟨p0, pfx⟩
    · rw [buildPrefixMaps_skip_none k v tl pfxs nss hsp]
      apply ih
      rcases List.mem_cons.1 hkv with rfl | hm
      · rw [hsp] at hsplit
        exact Option.noConfusion hsplit
      · exact ⟨kv, hm, p, hsplit, hban⟩
    · by_cases hp0 : p0 = "ns"
      · subst hp0
        by_cases hban0 : pfx ∈ bannedPrefixes
        · exact ⟨_, by rw [buildPrefixMaps_step k v tl pfxs nss pfx hsp, if_pos hban0]⟩
        · by_cases hc1 : (lookupA pfxs pfx).getD v ≠ v
          · exact ⟨_, by
              rw [buildPrefixMaps_step k v tl pfxs nss pfx hsp, if_neg hban0, if_pos hc1]⟩
          · by_cases hc2 : (lookupA nss v).getD pfx ≠ pfx
            · exact ⟨_, by
                rw [buildPrefixMaps_step k v tl pfxs nss pfx hsp, if_neg hban0,
                  if_neg hc1, if_pos hc2]⟩
            · rw [buildPrefixMaps_step k v tl pfxs nss pfx hsp, if_neg hban0,
                if_neg hc1, if_neg hc2]
              apply ih
              rcases List.mem_cons.1 hkv with rfl | hm
              · rw [hsp] at hsplit
                have : pfx = p := by
                  have := Option.some.inj hsplit
                  exact congrArg Prod.snd this
                exact absurd (this ▸ hban) hban0
              · exact ⟨kv, hm, p, hsplit, hban⟩
      · rw [buildPrefixMaps_skip_other k v tl pfxs nss p0 pfx hsp hp0]
        apply ih
        rcases List.mem_cons.1 hkv with rfl | hm
        · rw [hsp] at hsplit
          have := congrArg Prod.fst (Option.some.inj hsplit)
          exact absurd this hp0
        · exact ⟨kv, hm, p, hsplit, hban⟩

theorem bpm_error_of_ns_recorded : ∀ (l : List (String × String)) (pfxs nss : Params)
    (v p1 p2 : String), p1 ≠ p2 → lookupA nss v = some p1 →
    (∃ kv ∈ l, splitKey kv.1 = some ("ns", p2) ∧ kv.2 = v) →
    ∃ e, buildPrefixMaps l pfxs nss = .error e := by
  intro l
  induction l with
  | nil =>
    rintro pfxs nss v p1 p2 - - ⟨kv, hkv, -⟩
    simp at hkv
  | cons hd tl ih =>
    rintro pfxs nss v p1 p2 hne hrec ⟨kv, hkv, hsplit, hval⟩
    obtain ⟨k, w⟩ := hd
    rcases hsp : splitKey k with _ | ⟨p0, pfx⟩
    · rw [buildPrefixMaps_skip_none k w tl pfxs nss hsp]
      apply ih _ _ v p1 p2 hne hrec
      rcases List.mem_cons.1 hkv with rfl | hm
      · rw [hsp] at hsplit
        exact Option.noConfusion hsplit
      · exact ⟨kv, hm, hsplit, hval⟩
    · by_cases hp0 : p0 = "ns"
      · subst hp0
        by_cases hban0 : pfx ∈ bannedPrefixes
        · exact ⟨_, by rw [buildPrefixMaps_step k w tl pfxs nss pfx hsp, if_pos hban0]⟩
        · by_cases hc1 : (lookupA pfxs pfx).getD w ≠ w
          · exact ⟨_, by
              rw [buildPrefixMaps_step k w tl pfxs nss pfx hsp, if_neg hban0, if_pos hc1]⟩
          · by_cases hc2 : (lookupA nss w).getD pfx ≠ pfx
            · exact ⟨_, by
                rw [buildPrefixMaps_step k w tl pfxs nss pfx hsp, if_neg hban0,
                  if_neg hc1, if_pos hc2]⟩
            · rw [buildPrefixMaps_step k w tl pfxs nss pfx hsp, if_neg hban0,
                if_neg hc1, if_neg hc2]
              push_neg at hc2
              by_cases hw : w = v
              · subst hw
                rw [hrec] at hc2
                simp at hc2
                subst hc2
                rcases List.mem_cons.1 hkv with rfl | hm
                · rw [hsp] at hsplit
                  have : p1 = p2 := congrArg Prod.snd (Option.some.inj hsplit)
                  exact absurd this hne
                · apply ih _ _ w p1 p2 hne ?_ ⟨kv, hm, hsplit, hval⟩
                  rw [lookupA_setA_self]
              · apply ih _ _ v p1 p2 hne ?_ ?_
                · rw [lookupA_setA_ne _ _ _ _ (fun hc => hw hc.symm)]
                  exact hrec
                · rcases List.mem_cons.1 hkv with rfl | hm
                  · exact absurd hval hw
                  · exact ⟨kv, hm, hsplit, hval⟩
      · rw [buildPrefixMaps_skip_other k w tl pfxs nss p0 pfx hsp hp0]
        apply ih _ _ v p1 p2 hne hrec
        rcases List.mem_cons.1 hkv with rfl | hm
        · rw [hsp] at hsplit
          have := congrArg Prod.fst (Option.some.inj hsplit)
          exact absurd this hp0
        · exact ⟨kv, hm, hsplit, hval⟩


theorem bpm_error_of_dup : ∀ (l : List (String × String)) (pfxs nss : Params),
    ((l.map Prod.fst).Nodup) →
    (∃ kv1 ∈ l, ∃ kv2 ∈ l, ∃ p1 p2, splitKey kv1.1 = some ("ns", p1) ∧
      splitKey kv2.1 = some ("ns", p2) ∧ kv1.2 = kv2.2 ∧ p1 ≠ p2) →
    ∃ e, buildPrefixMaps l pfxs nss = .error e := by
  intro l
  induction l with
  | nil =>
    rintro pfxs nss - ⟨kv1, hkv1, -⟩
    simp at hkv1
  | cons hd tl ih =>
    rintro pfxs nss hnd ⟨kv1, hkv1, kv2, hkv2, p1, p2, hs1, hs2, hvv, hne⟩
    obtain ⟨k, w⟩ := hd
    simp only [List.map_cons, List.nodup_cons] at hnd
    rcases hsp : splitKey k with _ | ⟨p0, pfx⟩
    · rw [buildPrefixMaps_skip_none k w tl pfxs nss hsp]
      apply ih pfxs nss hnd.2
      rcases List.mem_cons.1 hkv1 with rfl | hm1
      · rw [hsp] at hs1; exact Option.noConfusion hs1
      rcases List.mem_cons.1 hkv2 with rfl | hm2
      · rw [hsp] at hs2; exact Option.noConfusion hs2
      exact ⟨kv1, hm1, kv2, hm2, p1, p2, hs1, hs2, hvv, hne⟩
    · by_cases hp0 : p0 = "ns"
      · subst hp0
        by_cases hban0 : pfx ∈ bannedPrefixes
        · exact ⟨_, by rw [buildPrefixMaps_step k w tl pfxs nss pfx hsp, if_pos hban0]⟩
        · by_cases hc1 : (lookupA pfxs pfx).getD w ≠ w
          · exact ⟨_, by
              rw [buildPrefixMaps_step k w tl pfxs nss pfx hsp, if_neg hban0, if_pos hc1]⟩
          · by_cases hc2 : (lookupA nss w).getD pfx ≠ pfx
            · exact ⟨_, by
                rw [buildPrefixMaps_step k w tl pfxs nss pfx hsp, if_neg hban0,
                  if_neg hc1, if_pos hc2]⟩
            · rw [buildPrefixMaps_step k w tl pfxs nss pfx hsp, if_neg hban0,
                if_neg hc1, if_neg hc2]
              rcases List.mem_cons.1 hkv1 with rfl | hm1
              · -- kv1 is the head: its declaration is recorded; kv2 must be in tl
                rw [hsp] at hs1
                have hp1 : pfx = p1 := congrArg Prod.snd (Option.some.inj hs1)
                rcases List.mem_cons.1 hkv2 with rfl | hm2
                · rw [hsp] at hs2
                  have hp2 : pfx = p2 := congrArg Prod.snd (Option.some.inj hs2)
                  exact absurd (hp1.symm.trans hp2) hne
                · refine bpm_error_of_ns_recorded tl _ _ w p1 p2 hne ?_
                    ⟨kv2, hm2, hs2, hvv.symm⟩
                  rw [← hp1]
                  exact lookupA_setA_self _ _ _
              rcases List.mem_cons.1 hkv2 with rfl | hm2
              · rw [hsp] at hs2
                have hp2 : pfx = p2 := congrArg Prod.snd (Option.some.inj hs2)
                refine bpm_error_of_ns_recorded tl _ _ w p2 p1 (fun hc => hne hc.symm) ?_
                  ⟨kv1, hm1, hs1, hvv⟩
                rw [← hp2]
                exact lookupA_setA_self _ _ _
              exact ih _ _ hnd.2 ⟨kv1, hm1, kv2, hm2, p1, p2, hs1, hs2, hvv, hne⟩
      · rw [buildPrefixMaps_skip_other k w tl pfxs nss p0 pfx hsp hp0]
        apply ih pfxs nss hnd.2
        rcases List.mem_cons.1 hkv1 with rfl | hm1
        · rw [hsp] at hs1
          exact absurd (congrArg Prod.fst (Option.some.inj hs1)) hp0
        rcases List.mem_cons.1 hkv2 with rfl | hm2
        · rw [hsp] at hs2
          exact absurd (congrArg Prod.fst (Option.some.inj hs2)) hp0
        exact ⟨kv1, hm1, kv2, hm2, p1, p2, hs1, hs2, hvv, hne⟩


theorem bpm_ok_of_clean : ∀ (l : List (String × String)) (pfxs nss : Params),
    ((l.map Prod.fst).Nodup) →
    (¬∃ kv ∈ l, ∃ p, splitKey kv.1 = some ("ns", p) ∧ p ∈ bannedPrefixes) →
    (¬∃ kv1 ∈ l, ∃ kv2 ∈ l, ∃ p1 p2, splitKey kv1.1 = some ("ns", p1) ∧
      splitKey kv2.1 = some ("ns", p2) ∧ kv1.2 = kv2.2 ∧ p1 ≠ p2) →
    (∀ kv ∈ l, ∀ p, splitKey kv.1 = some ("ns", p) →
      ∀ ns0, lookupA pfxs p = some ns0 → ns0 = kv.2) →
    (∀ kv ∈ l, ∀ p, splitKey kv.1 = some ("ns", p) →
      ∀ q, lookupA nss kv.2 = some q → q = p) →
    ∃ r, buildPrefixMaps l pfxs nss = .ok r := by
  intro l
  induction l with
  | nil => exact fun pfxs nss _ _ _ _ _ => ⟨(pfxs, nss), rfl⟩
  | cons hd tl ih =>
    intro pfxs nss hnd hban hdup hctx1 hctx2
    obtain ⟨k, w⟩ := hd
    simp only [List.map_cons, List.nodup_cons] at hnd
    have hban' : ¬∃ kv ∈ tl, ∃ p, splitKey kv.1 = some ("ns", p) ∧ p ∈ bannedPrefixes :=
      fun ⟨kv, hm, p, hs, hb⟩ => hban ⟨kv, List.mem_cons_of_mem _ hm, p, hs, hb⟩
    have hdup' : ¬∃ kv1 ∈ tl, ∃ kv2 ∈ tl, ∃ p1 p2, splitKey kv1.1 = some ("ns", p1) ∧
        splitKey kv2.1 = some ("ns", p2) ∧ kv1.2 = kv2.2 ∧ p1 ≠ p2 :=
      fun ⟨kv1, hm1, kv2, hm2, p1, p2, hs1, hs2, hvv, hne⟩ =>
        hdup ⟨kv1, List.mem_cons_of_mem _ hm1, kv2, List.mem_cons_of_mem _ hm2,
          p1, p2, hs1, hs2, hvv, hne⟩
    rcases hsp : splitKey k with _ | ⟨p0, pfx⟩
    · rw [buildPrefixMaps_skip_none k w tl pfxs nss hsp]
      exact ih pfxs nss hnd.2 hban' hdup'
        (fun kv hm => hctx1 kv (List.mem_cons_of_mem _ hm))
        (fun kv hm => hctx2 kv (List.mem_cons_of_mem _ hm))
    · by_cases hp0 : p0 = "ns"
      · subst hp0
        have hbn : pfx ∉ bannedPrefixes := fun hb =>
          hban ⟨(k, w), List.mem_cons_self _ _, pfx, hsp, hb⟩
        have hc1 : ¬((lookupA pfxs pfx).getD w ≠ w) := by
          rcases hl : lookupA pfxs pfx with _ | ns0
          · simp
          · have := hctx1 (k, w) (List.mem_cons_self _ _) pfx hsp ns0 hl
            simp [this]
        have hc2 : ¬((lookupA nss w).getD pfx ≠ pfx) := by
          rcases hl : lookupA nss w with _ | q
          · simp
          · have := hctx2 (k, w) (List.mem_cons_self _ _) pfx hsp q hl
            simp [this]
        rw [buildPrefixMaps_step k w tl pfxs nss pfx hsp, if_neg hbn, if_neg hc1,
          if_neg hc2]
        refine ih _ _ hnd.2 hban' hdup' ?_ ?_
        · -- prefix map context for the extended map
          intro kv hm p hs ns0 hl
          by_cases hp : p = pfx
          · subst hp
            exfalso
            have hk1 : kv.1 = k := by
              rw [(splitKey_ns kv.1 p).1 hs, (splitKey_ns k p).1 hsp]
            exact hnd.1 (hk1 ▸ List.mem_map_of_mem Prod.fst hm)
          · rw [lookupA_setA_ne _ _ _ _ hp] at hl
            exact hctx1 kv (List.mem_cons_of_mem _ hm) p hs ns0 hl
        · -- namespace map context for the extended map
          intro kv hm p hs q hl
          by_cases hv : kv.2 = w
          · rw [hv, lookupA_setA_self] at hl
            have hq : q = pfx := (Option.some.inj hl).symm
            subst hq
            by_contra hqp
            exact hdup ⟨(k, w), List.mem_cons_self _ _, kv, List.mem_cons_of_mem _ hm,
              q, p, hsp, hs, hv.symm, hqp⟩
          · rw [lookupA_setA_ne _ _ _ _ hv] at hl
            exact hctx2 kv (List.mem_cons_of_mem _ hm) p hs q hl
      · rw [buildPrefixMaps_skip_other k w tl pfxs nss p0 pfx hsp hp0]
        exact ih pfxs nss hnd.2 hban' hdup'
          (fun kv hm => hctx1 kv (List.mem_cons_of_mem _ hm))
          (fun kv hm => hctx2 kv (List.mem_cons_of_mem _ hm))


theorem bpm_ok_elim : ∀ (k w : String) (tl : List (String × String))
    (pfxs nss : Params) (pfx : String) (r : Params × Params),
    splitKey k = some ("ns", pfx) →
    buildPrefixMaps ((k, w) :: tl) pfxs nss = .ok r →
    pfx ∉ bannedPrefixes ∧ (lookupA pfxs pfx).getD w = w ∧
      (lookupA nss w).getD pfx = pfx ∧
      buildPrefixMaps tl (setA pfxs pfx w) (setA nss w pfx) = .ok r := by
  intro k w tl pfxs nss pfx r hsp hok
  rw [buildPrefixMaps_step k w tl pfxs nss pfx hsp] at hok
  by_cases hbn : pfx ∈ bannedPrefixes
  · rw [if_pos hbn] at hok
    exact Except.noConfusion hok
  · rw [if_neg hbn] at hok
    by_cases hc1 : (lookupA pfxs pfx).getD w ≠ w
    · rw [if_pos hc1] at hok
      exact Except.noConfusion hok
    · rw [if_neg hc1] at hok
      by_cases hc2 : (lookupA nss w).getD pfx ≠ pfx
      · rw [if_pos hc2] at hok
        exact Except.noConfusion hok
      · rw [if_neg hc2] at hok
        exact ⟨hbn, not_not.1 hc1, not_not.1 hc2, hok⟩

theorem bpm_ok_lookup : ∀ (l : List (String × String)) (pfxs nss fp fn : Params),
    ((l.map Prod.fst).Nodup) →
    buildPrefixMaps l pfxs nss = .ok (fp, fn) →
    ∀ p ns, (lookupA fp p = some ns ↔
      ((∃ kv ∈ l, splitKey kv.1 = some ("ns", p) ∧ kv.2 = ns) ∨
        lookupA pfxs p = some ns)) := by
  intro l
  induction l with
  | nil =>
    intro pfxs nss fp fn _ hok p ns
    have h : (pfxs, nss) = (fp, fn) := Except.ok.inj hok
    have hfp : pfxs = fp := congrArg Prod.fst h
    subst hfp
    simp
  | cons hd tl ih =>
    intro pfxs nss fp fn hnd hok p ns
    obtain ⟨k, w⟩ := hd
    simp only [List.map_cons, List.nodup_cons] at hnd
    rcases hsp : splitKey k with _ | ⟨p0, pfx⟩
    · rw [buildPrefixMaps_skip_none k w tl pfxs nss hsp] at hok
      rw [ih _ _ _ _ hnd.2 hok p ns]
      constructor
      · rintro (⟨kv, hm, hs, hv⟩ | h)
        · exact Or.inl ⟨kv, List.mem_cons_of_mem _ hm, hs, hv⟩
        · exact Or.inr h
      · rintro (⟨kv, hm, hs, hv⟩ | h)
        · rcases List.mem_cons.1 hm with rfl | hm'
          · rw [hsp] at hs
            exact Option.noConfusion hs
          · exact Or.inl ⟨kv, hm', hs, hv⟩
        · exact Or.inr h
    · by_cases hp0 : p0 = "ns"
      · subst hp0
        obtain ⟨hbn, hc1, hc2, hok'⟩ := bpm_ok_elim k w tl pfxs nss pfx (fp, fn) hsp hok
        rw [ih _ _ _ _ hnd.2 hok' p ns]
        by_cases hp : p = pfx
        · subst hp
          rw [lookupA_setA_self]
          constructor
          · rintro (⟨kv, hm, hs, hv⟩ | h)
            · exfalso
              have hk1 : kv.1 = k := by
                rw [(splitKey_ns kv.1 p).1 hs, (splitKey_ns k p).1 hsp]
              exact hnd.1 (hk1 ▸ List.mem_map_of_mem Prod.fst hm)
            · have hw : w = ns := Option.some.inj h
              exact Or.inl ⟨(k, w), List.mem_cons_self _ _, hsp, hw⟩
          · rintro (⟨kv, hm, hs, hv⟩ | h)
            · rcases List.mem_cons.1 hm with rfl | hm'
              · right
                rw [← hv]
              · exfalso
                have hk1 : kv.1 = k := by
                  rw [(splitKey_ns kv.1 p).1 hs, (splitKey_ns k p).1 hsp]
                exact hnd.1 (hk1 ▸ List.mem_map_of_mem Prod.fst hm')
            · right
              rcases hl : lookupA pfxs p with _ | ns0
              · rw [hl] at h
                exact Option.noConfusion h
              · rw [hl] at h
                rw [hl, Option.getD_some] at hc1
                rw [← hc1]
                exact h
        · rw [lookupA_setA_ne _ _ _ _ hp]
          constructor
          · rintro (⟨kv, hm, hs, hv⟩ | h)
            · exact Or.inl ⟨kv, List.mem_cons_of_mem _ hm, hs, hv⟩
            · exact Or.inr h
          · rintro (⟨kv, hm, hs, hv⟩ | h)
            · rcases List.mem_cons.1 hm with rfl | hm'
              · rw [hsp] at hs
                exact absurd (congrArg Prod.snd (Option.some.inj hs)).symm hp
              · exact Or.inl ⟨kv, hm', hs, hv⟩
            · exact Or.inr h
      · rw [buildPrefixMaps_skip_other k w tl pfxs nss p0 pfx hsp hp0] at hok
        rw [ih _ _ _ _ hnd.2 hok p ns]
        constructor
        · rintro (⟨kv, hm, hs, hv⟩ | h)
          · exact Or.inl ⟨kv, List.mem_cons_of_mem _ hm, hs, hv⟩
          · exact Or.inr h
        · rintro (⟨kv, hm, hs, hv⟩ | h)
          · rcases List.mem_cons.1 hm with rfl | hm'
            · rw [hsp] at hs
              exact absurd (congrArg Prod.fst (Option.some.inj hs)) hp0
            · exact Or.inl ⟨kv, hm', hs, hv⟩
          · exact Or.inr h

theorem bpm_ok_keys_nodup : ∀ (l : List (String × String)) (pfxs nss fp fn : Params),
    ((pfxs.map Prod.fst).Nodup) →
    buildPrefixMaps l pfxs nss = .ok (fp, fn) → ((fp.map Prod.fst).Nodup) := by
  intro l
  induction l with
  | nil =>
    intro pfxs nss fp fn hnd hok
    have h : pfxs = fp := congrArg Prod.fst (Except.ok.inj hok)
    exact h ▸ hnd
  | cons hd tl ih =>
    intro pfxs nss fp fn hnd hok
    obtain ⟨k, w⟩ := hd
    rcases hsp : splitKey k with _ | ⟨p0, pfx⟩
    · rw [buildPrefixMaps_skip_none k w tl pfxs nss hsp] at hok
      exact ih _ _ _ _ hnd hok
    · by_cases hp0 : p0 = "ns"
      · subst hp0
        obtain ⟨-, -, -, hok'⟩ := bpm_ok_elim k w tl pfxs nss pfx (fp, fn) hsp hok
        exact ih _ _ _ _ (setA_keys_nodup pfxs pfx w hnd) hok'
      · rw [buildPrefixMaps_skip_other k w tl pfxs nss p0 pfx hsp hp0] at hok
        exact ih _ _ _ _ hnd hok

theorem bpm_ok_not_banned : ∀ (l : List (String × String)) (pfxs nss fp fn : Params),
    (∀ p ns, lookupA pfxs p = some ns → p ∉ bannedPrefixes) →
    buildPrefixMaps l pfxs nss = .ok (fp, fn) →
    ∀ p ns, lookupA fp p = some ns → p ∉ bannedPrefixes := by
  intro l
  induction l with
  | nil =>
    intro pfxs nss fp fn hbn hok
    have h : pfxs = fp := congrArg Prod.fst (Except.ok.inj hok)
    exact h ▸ hbn
  | cons hd tl ih =>
    intro pfxs nss fp fn hbn hok
    obtain ⟨k, w⟩ := hd
    rcases hsp : splitKey k with _ | ⟨p0, pfx⟩
    · rw [buildPrefixMaps_skip_none k w tl pfxs nss hsp] at hok
      exact ih _ _ _ _ hbn hok
    · by_cases hp0 : p0 = "ns"
      · subst hp0
        obtain ⟨hb0, -, -, hok'⟩ := bpm_ok_elim k w tl pfxs nss pfx (fp, fn) hsp hok
        refine ih _ _ _ _ ?_ hok'
        intro p ns hl
        by_cases hp : p = pfx
        · subst hp
          exact fun hb => hb0 hb
        · rw [lookupA_setA_ne _ _ _ _ hp] at hl
          exact hbn p ns hl
      · rw [buildPrefixMaps_skip_other k w tl pfxs nss p0 pfx hsp hp0] at hok
        exact ih _ _ _ _ hbn hok


theorem addExtParam_eq (exts : List Extension) (p0 key v : String)
    (hnd : (exts.map Extension.Pfx).Nodup) :
    addExtParam exts p0 key v = exts.map (fun ex =>
      if ex.Pfx = p0 then { ex with Params := setA ex.Params key v } else ex) := by
  induction exts with
  | nil => rfl
  | cons e rest ih =>
    simp only [List.map_cons, List.nodup_cons] at hnd
    by_cases he : e.Pfx = p0
    · rw [addExtParam, if_pos he, List.map_cons, if_pos he]
      congr 1
      have : ∀ ex ∈ rest, (if ex.Pfx = p0 then
          { ex with Params := setA ex.Params key v } else ex) = ex := by
        intro ex hm
        rw [if_neg]
        intro hc
        exact hnd.1 (he ▸ hc ▸ List.mem_map_of_mem Extension.Pfx hm)
      rw [List.map_congr_left this]
      simp
    · rw [addExtParam, if_neg he, List.map_cons, if_neg he, ih hnd.2]

theorem addExtParam_pfx (exts : List Extension) (p0 key v : String) :
    (addExtParam exts p0 key v).map Extension.Pfx = exts.map Extension.Pfx := by
  induction exts with
  | nil => rfl
  | cons e rest ih =>
    by_cases he : e.Pfx = p0
    · rw [addExtParam, if_pos he]
      simp
    · rw [addExtParam, if_neg he, List.map_cons, List.map_cons, ih]

theorem collect_eq : ∀ (ps : List (String × String)) (exts : List Extension),
    ((exts.map Extension.Pfx).Nodup) →
    collectExtParams ps exts = exts.map (fun ex =>
      { ex with Params := collectFor ex.Pfx ps ex.Params }) := by
  intro ps
  induction ps with
  | nil =>
    intro exts _
    rw [collectExtParams]
    have : ∀ ex ∈ exts, ({ ex with Params := collectFor ex.Pfx [] ex.Params }) = ex := by
      intro ex _
      rfl
    rw [List.map_congr_left this]
    simp
  | cons kv tl ih =>
    intro exts hnd
    obtain ⟨k, w⟩ := kv
    rcases hsp : splitKey k with _ | ⟨p0, key0⟩
    · have hstep : collectExtParams ((k, w) :: tl) exts = collectExtParams tl exts := by
        rw [collectExtParams, hsp]
      rw [hstep, ih exts hnd]
      refine List.map_congr_left ?_
      intro ex _
      have : collectFor ex.Pfx ((k, w) :: tl) ex.Params =
          collectFor ex.Pfx tl ex.Params := by
        rw [collectFor, List.foldl_cons, hsp]
        rfl
      rw [this]
    · by_cases hns : p0 = "ns"
      · subst hns
        have hstep : collectExtParams ((k, w) :: tl) exts = collectExtParams tl exts := by
          rw [collectExtParams, hsp]
          rfl
        rw [hstep, ih exts hnd]
        refine List.map_congr_left ?_
        intro ex _
        have : collectFor ex.Pfx ((k, w) :: tl) ex.Params =
            collectFor ex.Pfx tl ex.Params := by
          rw [collectFor, List.foldl_cons, hsp]
          have : (if ("ns" = ex.Pfx ∧ ("ns" : String) ≠ "ns") then
              setA ex.Params key0 w else ex.Params) = ex.Params := by
            rw [if_neg]
            rintro ⟨-, hc⟩
            exact hc rfl
          rw [collectFor] at *
          simp only [this]
        rw [this]
      · have hstep : collectExtParams ((k, w) :: tl) exts =
            collectExtParams tl (addExtParam exts p0 key0 w) := by
          rw [collectExtParams, hsp]
          exact if_neg hns
        rw [hstep, ih _ (by rw [addExtParam_pfx]; exact hnd), addExtParam_eq _ _ _ _ hnd,
          List.map_map]
        refine List.map_congr_left ?_
        intro ex _
        simp only [Function.comp]
        by_cases he : ex.Pfx = p0
        · rw [if_pos he]
          have : collectFor ex.Pfx ((k, w) :: tl) ex.Params =
              collectFor ex.Pfx tl (setA ex.Params key0 w) := by
            rw [collectFor, List.foldl_cons, hsp]
            have hcond : (p0 = ex.Pfx ∧ p0 ≠ "ns") := ⟨he.symm, hns⟩
            rw [collectFor]
            simp only [if_pos hcond]
          rw [this]
        · rw [if_neg he]
          have : collectFor ex.Pfx ((k, w) :: tl) ex.Params =
              collectFor ex.Pfx tl ex.Params := by
            rw [collectFor, List.foldl_cons, hsp]
            have hcond : ¬(p0 = ex.Pfx ∧ p0 ≠ "ns") := by
              rintro ⟨hc, -⟩
              exact he hc.symm
            rw [collectFor]
            simp only [if_neg hcond]
          rw [this]


theorem collectFor_lookup (p : String) (hp : p ≠ "ns") :
    ∀ (ps : List (String × String)) (acc : Params), ((ps.map Prod.fst).Nodup) →
    ∀ key v, (lookupA (collectFor p ps acc) key = some v ↔
      ((∃ kv ∈ ps, splitKey kv.1 = some (p, key) ∧ kv.2 = v) ∨
        (lookupA acc key = some v ∧ ¬∃ kv ∈ ps, splitKey kv.1 = some (p, key)))) := by
  intro ps
  induction ps with
  | nil =>
    intro acc _ key v
    rw [collectFor]
    simp
  | cons kv0 tl ih =>
    intro acc hnd key v
    obtain ⟨k, w⟩ := kv0
    simp only [List.map_cons, List.nodup_cons] at hnd
    rcases hsp : splitKey k with _ | ⟨p0, key0⟩
    · have hstep : collectFor p ((k, w) :: tl) acc = collectFor p tl acc := by
        rw [collectFor, collectFor, List.foldl_cons, hsp]
      rw [hstep]
      rw [ih acc hnd.2 key v]
      constructor
      · rintro (⟨kv, hm, hs, hv⟩ | ⟨hacc, hno⟩)
        · exact Or.inl ⟨kv, List.mem_cons_of_mem _ hm, hs, hv⟩
        · refine Or.inr ⟨hacc, ?_⟩
          rintro ⟨kv, hm, hs⟩
          rcases List.mem_cons.1 hm with rfl | hm'
          · rw [hsp] at hs
            exact Option.noConfusion hs
          · exact hno ⟨kv, hm', hs⟩
      · rintro (⟨kv, hm, hs, hv⟩ | ⟨hacc, hno⟩)
        · rcases List.mem_cons.1 hm with rfl | hm'
          · rw [hsp] at hs
            exact Option.noConfusion hs
          · exact Or.inl ⟨kv, hm', hs, hv⟩
        · exact Or.inr ⟨hacc, fun ⟨kv, hm, hs⟩ => hno ⟨kv, List.mem_cons_of_mem _ hm, hs⟩⟩
    · by_cases hcond : p0 = p ∧ p0 ≠ "ns"
      · obtain ⟨hpp, -⟩ := hcond
        subst hpp
        have hstep : collectFor p0 ((k, w) :: tl) acc =
            collectFor p0 tl (setA acc key0 w) := by
          rw [collectFor, collectFor, List.foldl_cons, hsp]
          exact congrArg (fun z => List.foldl _ z tl) (if_pos ⟨rfl, hp⟩)
        rw [hstep]
        rw [ih _ hnd.2 key v]
        by_cases hkey : key0 = key
        · subst hkey
          have hnotl : ¬∃ kv ∈ tl, splitKey kv.1 = some (p0, key0) := by
            rintro ⟨kv, hm, hs⟩
            have hk1 : kv.1 = k := by
              have h1 := (splitKey_some kv.1 p0 key0).1 hs
              have h2 := (splitKey_some k p0 key0).1 hsp
              exact String.ext (h1.2.trans h2.2.symm)
            exact hnd.1 (hk1 ▸ List.mem_map_of_mem Prod.fst hm)
          constructor
          · rintro (⟨kv, hm, hs, hv⟩ | ⟨hacc, -⟩)
            · exact absurd ⟨kv, hm, hs⟩ hnotl
            · rw [lookupA_setA_self] at hacc
              exact Or.inl ⟨(k, w), List.mem_cons_self _ _, hsp, Option.some.inj hacc⟩
          · rintro (⟨kv, hm, hs, hv⟩ | ⟨hacc, hno⟩)
            · rcases List.mem_cons.1 hm with rfl | hm'
              · right
                refine ⟨?_, hnotl⟩
                rw [lookupA_setA_self]
                exact congrArg some hv
              · exact absurd ⟨kv, hm', hs⟩ hnotl
            · exact absurd ⟨(k, w), List.mem_cons_self _ _, hsp⟩ hno
        · rw [lookupA_setA_ne _ _ _ _ (fun hc => hkey hc.symm)]
          constructor
          · rintro (⟨kv, hm, hs, hv⟩ | ⟨hacc, hno⟩)
            · exact Or.inl ⟨kv, List.mem_cons_of_mem _ hm, hs, hv⟩
            · refine Or.inr ⟨hacc, ?_⟩
              rintro ⟨kv, hm, hs⟩
              rcases List.mem_cons.1 hm with rfl | hm'
              · rw [hsp] at hs
                exact hkey (congrArg Prod.snd (Option.some.inj hs))
              · exact hno ⟨kv, hm', hs⟩
          · rintro (⟨kv, hm, hs, hv⟩ | ⟨hacc, hno⟩)
            · rcases List.mem_cons.1 hm with rfl | hm'
              · rw [hsp] at hs
                exact absurd (congrArg Prod.snd (Option.some.inj hs)) hkey
              · exact Or.inl ⟨kv, hm', hs, hv⟩
            · exact Or.inr ⟨hacc, fun ⟨kv, hm, hs⟩ => hno ⟨kv, List.mem_cons_of_mem _ hm, hs⟩⟩
      · have hstep : collectFor p ((k, w) :: tl) acc = collectFor p tl acc := by
          rw [collectFor, collectFor, List.foldl_cons, hsp]
          exact congrArg (fun z => List.foldl _ z tl) (if_neg hcond)
        rw [hstep]
        rw [ih acc hnd.2 key v]
        have hps : p0 ≠ p := by
          intro hc
          subst hc
          exact hcond ⟨rfl, hp⟩
        constructor
        · rintro (⟨kv, hm, hs, hv⟩ | ⟨hacc, hno⟩)
          · exact Or.inl ⟨kv, List.mem_cons_of_mem _ hm, hs, hv⟩
          · refine Or.inr ⟨hacc, ?_⟩
            rintro ⟨kv, hm, hs⟩
            rcases List.mem_cons.1 hm with rfl | hm'
            · rw [hsp] at hs
              exact hps (congrArg Prod.fst (Option.some.inj hs))
            · exact hno ⟨kv, hm', hs⟩
        · rintro (⟨kv, hm, hs, hv⟩ | ⟨hacc, hno⟩)
          · rcases List.mem_cons.1 hm with rfl | hm'
            · rw [hsp] at hs
              exact absurd (congrArg Prod.fst (Option.some.inj hs)) hps
            · exact Or.inl ⟨kv, hm', hs, hv⟩
          · exact Or.inr ⟨hacc, fun ⟨kv, hm, hs⟩ => hno ⟨kv, List.mem_cons_of_mem _ hm, hs⟩⟩


/-- C7: extension parsing fails exactly when a reserved name is declared
as an extension prefix via an ns.-prefixed key, or when one namespace
value is claimed by two different prefixes (with unique map keys, one
prefix cannot map to two namespace values, so that clause of the claim is
vacuous); on success each declared prefix yields one extension whose
parameter set holds exactly the prefix.key entries for that prefix, and
prefixed keys with no declaration are ignored. -/
theorem c7_parse_extensions (params : Params)
    (hnd : (params.map Prod.fst).Nodup) :
    ((∃ e, parseExtensions params = .error e) ↔
      ((∃ kv ∈ params, ∃ p, splitKey kv.1 = some ("ns", p) ∧ p ∈ bannedPrefixes) ∨
       (∃ kv1 ∈ params, ∃ kv2 ∈ params, ∃ p1 p2,
         splitKey kv1.1 = some ("ns", p1) ∧ splitKey kv2.1 = some ("ns", p2) ∧
         kv1.2 = kv2.2 ∧ p1 ≠ p2))) ∧
    (∀ exts, parseExtensions params = .ok exts →
      (∀ p ns, (∃ ex ∈ exts, ex.Pfx = p ∧ ex.Namespace = ns) ↔
        (∃ kv ∈ params, splitKey kv.1 = some ("ns", p) ∧ kv.2 = ns)) ∧
      (∀ ex ∈ exts, ∀ key v, lookupA ex.Params key = some v ↔
        (∃ kv ∈ params, splitKey kv.1 = some (ex.Pfx, key) ∧ kv.2 = v))) := by
  rcases hbpm : buildPrefixMaps params [] [] with e | ⟨fp, fn⟩
  · -- the first pass fails
    have hpe : parseExtensions params = .error e := by
      rw [parseExtensions, hbpm]
    constructor
    · constructor
      · intro _
        by_contra hcon
        rw [not_or] at hcon
        obtain ⟨r, hr⟩ := bpm_ok_of_clean params [] [] hnd hcon.1 hcon.2
          (by intro kv _ p _ ns0 hl; exact absurd hl (by simp [lookupA]))
          (by intro kv _ p _ q hl; exact absurd hl (by simp [lookupA]))
        rw [hbpm] at hr
        exact Except.noConfusion hr
      · intro _
        exact ⟨e, hpe⟩
    · intro exts hok
      rw [hpe] at hok
      exact Except.noConfusion hok
  · -- the first pass succeeds
    have hfpnd : (fp.map Prod.fst).Nodup :=
      bpm_ok_keys_nodup params [] [] fp fn (by simp) hbpm
    have hnotban : ∀ p ns, lookupA fp p = some ns → p ∉ bannedPrefixes :=
      bpm_ok_not_banned params [] [] fp fn
        (by intro p ns hl; exact absurd hl (by simp [lookupA])) hbpm
    have hlook := bpm_ok_lookup params [] [] fp fn hnd hbpm
    have hpe : parseExtensions params =
        .ok (collectExtParams params
          (fp.map (fun pn => { Namespace := pn.2, Pfx := pn.1, Params := [] }))) := by
      rw [parseExtensions, hbpm]
    constructor
    · constructor
      · rintro ⟨e, he⟩
        rw [hpe] at he
        exact Except.noConfusion he
      · rintro (hban | hdup)
        · obtain ⟨e, he⟩ := bpm_error_of_banned params [] [] hban
          rw [hbpm] at he
          exact Except.noConfusion he
        · obtain ⟨e, he⟩ := bpm_error_of_dup params [] [] hnd hdup
          rw [hbpm] at he
          exact Except.noConfusion he
    · intro exts hok
      rw [hpe] at hok
      have hexts := (Except.ok.inj hok).symm
      have hpfx0 : ((fp.map (fun pn =>
          ({ Namespace := pn.2, Pfx := pn.1, Params := [] } : Extension))).map
            Extension.Pfx).Nodup := by
        rw [List.map_map]
        exact hfpnd
      have hcoll := collect_eq params
        (fp.map (fun pn => { Namespace := pn.2, Pfx := pn.1, Params := [] })) hpfx0
      rw [hcoll, List.map_map] at hexts
      constructor
      · intro p ns
        constructor
        · rintro ⟨ex, hex, hpfx, hns⟩
          rw [hexts] at hex
          obtain ⟨pn, hpn, hexeq⟩ := List.mem_map.1 hex
          have hexeq' : ex = ⟨pn.2, pn.1, collectFor pn.1 params []⟩ := hexeq.symm
          have h1 : pn.1 = p := by rw [← hpfx, hexeq']
          have h2 : pn.2 = ns := by rw [← hns, hexeq']
          have hl : lookupA fp p = some ns := by
            rw [← h1, ← h2]
            exact mem_lookupA_of_nodup fp pn.1 pn.2 hfpnd (by
              rcases pn with ⟨a, b⟩
              exact hpn)
          rcases (hlook p ns).1 hl with hdecl | habs
          · exact hdecl
          · exact absurd habs (by simp [lookupA])
        · rintro ⟨kv, hm, hs, hv⟩
          have hl : lookupA fp p = some ns := (hlook p ns).2 (Or.inl ⟨kv, hm, hs, hv⟩)
          have hmem : (p, ns) ∈ fp := lookupA_mem fp p ns hl
          refine ⟨{ Namespace := ns, Pfx := p, Params := collectFor p params [] }, ?_, rfl, rfl⟩
          rw [hexts]
          exact List.mem_map.2 ⟨(p, ns), hmem, rfl⟩
      · intro ex hex key v
        rw [hexts] at hex
        obtain ⟨pn, hpn, hexeq⟩ := List.mem_map.1 hex
        have hexeq' : ex = ⟨pn.2, pn.1, collectFor pn.1 params []⟩ := hexeq.symm
        have hlp : lookupA fp pn.1 = some pn.2 :=
          mem_lookupA_of_nodup fp pn.1 pn.2 hfpnd (by rcases pn with ⟨a, b⟩; exact hpn)
        have hns : pn.1 ≠ "ns" := by
          intro hc
          exact hnotban pn.1 pn.2 hlp (by rw [hc]; decide)
        have hparams : ex.Params = collectFor pn.1 params [] := by rw [hexeq']
        have hpfx : ex.Pfx = pn.1 := by rw [hexeq']
        rw [hparams, hpfx]
        rw [collectFor_lookup pn.1 hns params [] hnd key v]
        constructor
        · rintro (h | ⟨habs, -⟩)
          · exact h
          · exact absurd habs (by simp [lookupA])
        · intro h
          exact Or.inl h


theorem c7_witness :
    ∃ e, parseExtensions [("ns.sig", "http://y/")] = .error e :=
  (c7_parse_extensions [("ns.sig", "http://y/")] (by decide)).1.2
    (Or.inl ⟨("ns.sig", "http://y/"), by decide, "sig", by decide, by decide⟩)

/-! ### C8 infrastructure: generated labels and the choice loop -/

theorem toDigitsCore_append : ∀ (fuel n : Nat) (ds : List Char),
    Nat.toDigitsCore 10 fuel n ds = Nat.toDigitsCore 10 fuel n [] ++ ds := by
  intro fuel
  induction fuel with
  | zero => intro n ds; simp [Nat.toDigitsCore]
  | succ f ih =>
    intro n ds
    rw [Nat.toDigitsCore, Nat.toDigitsCore]
    by_cases h0 : n / 10 = 0
    · simp [h0]
    · simp only [if_neg h0]
      rw [ih (n / 10) [Nat.digitChar (n % 10)],
        ih (n / 10) (Nat.digitChar (n % 10) :: ds), List.append_assoc]
      rfl

theorem decodeDigits_append_digit (l : List Char) (c : Char) :
    decodeDigits (l ++ [c]) = decodeDigits l * 10 + (c.toNat - 48) := by
  rw [decodeDigits, decodeDigits, List.foldl_append]
  rfl

theorem digitChar_val : ∀ k, k < 10 → ((Nat.digitChar k).toNat - 48) = k := by decide

theorem toDigitsCore_decode : ∀ (fuel n : Nat), n < fuel →
    decodeDigits (Nat.toDigitsCore 10 fuel n []) = n := by
  intro fuel
  induction fuel with
  | zero => intro n h; omega
  | succ f ih =>
    intro n h
    rw [Nat.toDigitsCore]
    by_cases h0 : n / 10 = 0
    · have hn : n < 10 := by omega
      simp only [if_pos h0]
      have : decodeDigits [Nat.digitChar (n % 10)] = (Nat.digitChar (n % 10)).toNat - 48 := by
        rw [decodeDigits]
        simp
      rw [this, digitChar_val (n % 10) (Nat.mod_lt n (by omega))]
      omega
    · simp only [if_neg h0]
      rw [toDigitsCore_append f (n / 10) [Nat.digitChar (n % 10)],
        decodeDigits_append_digit,
        ih (n / 10) (by omega), digitChar_val (n % 10) (by omega)]
      omega

theorem reprNat_inj (m n : Nat) (h : Nat.repr m = Nat.repr n) : m = n := by
  have hd : Nat.toDigitsCore 10 (m + 1) m [] = Nat.toDigitsCore 10 (n + 1) n [] := by
    have := congrArg String.data h
    simpa [Nat.repr, Nat.toDigits, List.asString] using this
  have h1 := toDigitsCore_decode (m + 1) m (by omega)
  have h2 := toDigitsCore_decode (n + 1) n (by omega)
  rw [hd, h2] at h1
  exact h1.symm

theorem extName_inj (i j : Nat) (h : extName i = extName j) : i = j := by
  have hd := congrArg String.data h
  simp only [extName, String.data_append] at hd
  have : (Nat.repr i).data = (Nat.repr j).data := List.append_cancel_left hd
  exact reprNat_inj i j (String.ext this)

theorem extName_not_banned : ∀ j, extName j ∉ bannedPrefixes := by
  have htake : ∀ s : String, ("ext" ++ s).data.take 3 = ['e', 'x', 't'] := by
    intro s
    rw [String.data_append]
    rfl
  have hb : ∀ b ∈ bannedPrefixes, b.data.take 3 ≠ ['e', 'x', 't'] := by decide
  intro j hmem
  exact hb _ hmem (htake (Nat.repr j))


theorem range_extName_bound (i : Nat) (used : List String) (p : String)
    (hinv : ∀ j < i, extName j ∈ used ∨ extName j = p) :
    i ≤ used.length + 1 := by
  have hnd : ((List.range i).map extName).Nodup :=
    (List.nodup_range i).map (fun a b hab => extName_inj a b hab)
  have hsub : (List.range i).map extName ⊆ used ++ [p] := by
    intro x hx
    rcases List.mem_map.1 hx with ⟨j, hj, rfl⟩
    rcases hinv j (List.mem_range.1 hj) with h | h
    · exact List.mem_append.2 (Or.inl h)
    · exact List.mem_append.2 (Or.inr (by rw [h]; exact List.mem_singleton_self p))
  have hcard : ((List.range i).map extName).toFinset.card = i := by
    rw [List.toFinset_card_of_nodup hnd]
    simp
  have hle : ((List.range i).map extName).toFinset ⊆ (used ++ [p]).toFinset := by
    intro x hx
    exact List.mem_toFinset.2 (hsub (List.mem_toFinset.1 hx))
  have h1 := Finset.card_le_card hle
  have h2 := List.toFinset_card_le (used ++ [p])
  rw [hcard] at h1
  have h3 : (used ++ [p]).length = used.length + 1 := by simp
  omega

theorem choosePfxAux_spec : ∀ (fuel : Nat) (used : List String) (p : String) (i : Nat),
    used.length + 2 ≤ fuel + i →
    (∀ j < i, extName j ∈ used ∨ extName j = p) →
    ∃ c i', choosePfxAux used fuel p i = some (c, i') ∧
      c ∉ bannedPrefixes ∧ c ∉ used ∧ i ≤ i' ∧
      (∀ j < i', extName j ∈ used ∨ extName j = c) ∧
      ((p ∉ bannedPrefixes ∧ p ∉ used) → (c = p ∧ i' = i)) ∧
      ((p ∈ bannedPrefixes ∨ p ∈ used) →
        ∃ j, i' = j + 1 ∧ c = extName j ∧ ∀ j' < j, extName j' ∈ used) := by
  intro fuel
  induction fuel with
  | zero =>
    intro used p i hbound hinv
    have := range_extName_bound i used p hinv
    omega
  | succ f ih =>
    intro used p i hbound hinv
    by_cases hbad : p ∈ bannedPrefixes ∨ p ∈ used
    · have hstep : choosePfxAux used (f + 1) p i = choosePfxAux used f (extName i) (i + 1) := by
        rw [choosePfxAux, if_pos hbad]
      have hinv' : ∀ j < i + 1, extName j ∈ used ∨ extName j = extName i := by
        intro j hj
        rcases Nat.lt_succ_iff_lt_or_eq.1 hj with hj' | rfl
        · rcases hinv j hj' with h | h
          · exact Or.inl h
          · rcases hbad with hb | hb
            · exact absurd (h ▸ hb) (extName_not_banned j)
            · exact Or.inl (h ▸ hb)
        · exact Or.inr rfl
      obtain ⟨c, i', hch, hnb, hnu, hle, hinv2, hkeep, hgen⟩ :=
        ih used (extName i) (i + 1) (by omega) hinv'
      refine ⟨c, i', by rw [hstep]; exact hch, hnb, hnu, by omega, hinv2, ?_, ?_⟩
      · rintro ⟨h1, h2⟩
        rcases hbad with hb | hb
        · exact absurd hb h1
        · exact absurd hb h2
      · intro _
        by_cases hgood : extName i ∉ bannedPrefixes ∧ extName i ∉ used
        · obtain ⟨hc, hi⟩ := hkeep hgood
          refine ⟨i, by omega, hc, ?_⟩
          intro j' hj'
          rcases hinv j' hj' with h | h
          · exact h
          · rcases hbad with hb | hb
            · exact absurd (h ▸ hb) (extName_not_banned j')
            · exact h ▸ hb
        · rw [not_and_or, not_not, not_not] at hgood
          exact hgen hgood
    · rw [not_or] at hbad
      refine ⟨p, i, ?_, hbad.1, hbad.2, le_rfl, hinv, fun _ => ⟨rfl, rfl⟩, ?_⟩
      · rw [choosePfxAux, if_neg (by rw [not_or]; exact hbad)]
      · rintro (h | h)
        · exact absurd h hbad.1
        · exact absurd h hbad.2


theorem mem_take_cons_append (c x : String) (l used : List String) (k : Nat) :
    x ∈ l.take k ++ (c :: used) ↔ x ∈ (c :: l).take (k + 1) ++ used := by
  rw [List.take_succ_cons]
  simp only [List.cons_append, List.mem_cons, List.mem_append]
  tauto

theorem encodeExtGo_chosen : ∀ (exts : List Extension) (used : List String)
    (i : Nat) (ps : Params) (signed : List String),
    (∀ j < i, extName j ∈ used) →
    ∃ chosen : List String,
      chosen.length = exts.length ∧
      encodeExtGo exts used i ps signed = encodeWithChosen exts chosen ps signed ∧
      (∀ k, k < chosen.length →
        chosen.getD k "" ∉ bannedPrefixes ∧
        chosen.getD k "" ∉ (chosen.take k ++ used) ∧
        (((exts.getD k ⟨"", "", []⟩).Pfx ∉ bannedPrefixes ∧
          (exts.getD k ⟨"", "", []⟩).Pfx ∉ (chosen.take k ++ used)) →
            chosen.getD k "" = (exts.getD k ⟨"", "", []⟩).Pfx) ∧
        (((exts.getD k ⟨"", "", []⟩).Pfx ∈ bannedPrefixes ∨
          (exts.getD k ⟨"", "", []⟩).Pfx ∈ (chosen.take k ++ used)) →
            ∃ j, chosen.getD k "" = extName j ∧
              extName j ∉ (chosen.take k ++ used) ∧
              ∀ j' < j, extName j' ∈ (chosen.take k ++ used))) := by
  intro exts
  induction exts with
  | nil =>
    intro used i ps signed _
    exact ⟨[], rfl, rfl, fun k hk => absurd hk (by simp)⟩
  | cons ext rest ih =>
    intro used i ps signed hinv
    obtain ⟨c, i', hch, hnb, hnu, hle, hinv2, hkeep, hgen⟩ :=
      choosePfxAux_spec (used.length + 2) used ext.Pfx i (by omega)
        (fun j hj => Or.inl (hinv j hj))
    have hstep : encodeExtGo (ext :: rest) used i ps signed =
        encodeExtGo rest (c :: used) i'
          (emitExtension c ext ps signed).1 (emitExtension c ext ps signed).2 := by
      rw [encodeExtGo, hch]
    have hinv3 : ∀ j < i', extName j ∈ c :: used := by
      intro j hj
      rcases hinv2 j hj with h | h
      · exact List.mem_cons_of_mem _ h
      · exact h ▸ List.mem_cons_self _ _
    obtain ⟨chosen', hlen', heq', hprops'⟩ :=
      ih (c :: used) i' (emitExtension c ext ps signed).1
        (emitExtension c ext ps signed).2 hinv3
    refine ⟨c :: chosen', by simp [hlen'], ?_, ?_⟩
    · rw [hstep, heq']
      rfl
    · intro k hk
      rcases k with _ | k'
      · refine ⟨hnb, by simpa using hnu, ?_, ?_⟩
        · intro ⟨h1, h2⟩
          simp only [List.take_zero, List.nil_append] at h2
          exact ((hkeep ⟨h1, h2⟩).1 : c = ext.Pfx) ▸ rfl
        · intro h
          simp only [List.take_zero, List.nil_append] at h
          obtain ⟨j, -, hc, hju⟩ := hgen h
          exact ⟨j, hc, by rw [← hc]; simpa using hnu, fun j' hj' => hju j' hj'⟩
      · simp only [List.length_cons, Nat.succ_lt_succ_iff] at hk
        obtain ⟨hp1, hp2, hp3, hp4⟩ := hprops' k' hk
        have hset : ∀ x : String,
            x ∈ chosen'.take k' ++ (c :: used) ↔
            x ∈ (c :: chosen').take (k' + 1) ++ used :=
          fun x => mem_take_cons_append c x chosen' used k'
        rw [List.getD_cons_succ, List.getD_cons_succ]
        refine ⟨hp1, fun hm => hp2 ((hset _).2 hm), ?_, ?_⟩
        · intro ⟨h1, h2⟩
          exact hp3 ⟨h1, fun hm => h2 ((hset _).1 hm)⟩
        · intro h
          have h' : (rest.getD k' ⟨"", "", []⟩).Pfx ∈ bannedPrefixes ∨
              (rest.getD k' ⟨"", "", []⟩).Pfx ∈ chosen'.take k' ++ (c :: used) := by
            rcases h with h | h
            · exact Or.inl h
            · exact Or.inr ((hset _).2 h)
          obtain ⟨j, hj1, hj2, hj3⟩ := hp4 h'
          exact ⟨j, hj1, fun hm => hj2 ((hset _).2 hm),
            fun j' hj' => (hset _).1 (hj3 j' hj')⟩

theorem nodup_of_getD_not_take : ∀ l : List String,
    (∀ k, k < l.length → l.getD k "" ∉ l.take k) → l.Nodup := by
  intro l
  induction l with
  | nil => intro _; exact List.nodup_nil
  | cons x xs ih =>
    intro h
    rw [List.nodup_cons]
    constructor
    · intro hx
      obtain ⟨k, hk, hkx⟩ := List.mem_iff_getElem.1 hx
      have hgd : xs.getD k "" = x := by
        rw [List.getD_eq_getElem _ _ hk, hkx]
      have := h (k + 1) (by simpa using Nat.succ_lt_succ hk)
      rw [List.take_succ_cons, List.getD_cons_succ, hgd] at this
      exact this (List.mem_cons_self _ _)
    · refine ih ?_
      intro k hk
      have := h (k + 1) (by simpa using Nat.succ_lt_succ hk)
      rw [List.take_succ_cons, List.getD_cons_succ] at this
      exact fun hm => this (List.mem_cons_of_mem _ hm)

/-- C8: extension encoding never chooses a reserved field name as the
output prefix and never assigns one prefix to two extensions in the same
message; each extension keeps its declared prefix unless that prefix is
reserved or already used earlier in the message, in which case the first
unused generated label ext0, ext1, ... is chosen instead, and the
encoder output is exactly the emission under the chosen prefixes. -/
theorem c8_encode_extensions (ps : Params) (exts : List Extension) :
    ∃ chosen : List String,
      chosen.length = exts.length ∧
      chosen.Nodup ∧
      (∀ c ∈ chosen, c ∉ bannedPrefixes) ∧
      encodeExtensions ps exts = encodeWithChosen exts chosen ps [] ∧
      (∀ k, k < chosen.length →
        (((exts.getD k ⟨"", "", []⟩).Pfx ∉ bannedPrefixes ∧
          (exts.getD k ⟨"", "", []⟩).Pfx ∉ chosen.take k) →
            chosen.getD k "" = (exts.getD k ⟨"", "", []⟩).Pfx) ∧
        (((exts.getD k ⟨"", "", []⟩).Pfx ∈ bannedPrefixes ∨
          (exts.getD k ⟨"", "", []⟩).Pfx ∈ chosen.take k) →
            ∃ j, chosen.getD k "" = extName j ∧ extName j ∉ chosen.take k ∧
              ∀ j' < j, extName j' ∈ chosen.take k)) := by
  obtain ⟨chosen, hlen, heq, hprops⟩ :=
    encodeExtGo_chosen exts [] 0 ps [] (fun j hj => absurd hj (by omega))
  have hset : ∀ (k : Nat) (x : String), x ∈ chosen.take k ++ ([] : List String) ↔
      x ∈ chosen.take k := by
    intro k x
    simp
  refine ⟨chosen, hlen, ?_, ?_, heq, ?_⟩
  · refine nodup_of_getD_not_take chosen ?_
    intro k hk
    exact fun hm => (hprops k hk).2.1 ((hset k _).2 hm)
  · intro c hc
    obtain ⟨k, hk, hkc⟩ := List.mem_iff_getElem.1 hc
    have hgd : chosen.getD k "" = c := by
      rw [List.getD_eq_getElem _ _ hk, hkc]
    exact hgd ▸ (hprops k hk).1
  · intro k hk
    obtain ⟨-, -, hp3, hp4⟩ := hprops k hk
    constructor
    · intro ⟨h1, h2⟩
      exact hp3 ⟨h1, fun hm => h2 ((hset k _).1 hm)⟩
    · intro h
      have h' := hp4 (by
        rcases h with h | h
        · exact Or.inl h
        · exact Or.inr ((hset k _).2 h))
      obtain ⟨j, hj1, hj2, hj3⟩ := h'
      exact ⟨j, hj1, fun hm => hj2 ((hset k _).2 hm),
        fun j' hj' => (hset k _).1 (hj3 j' hj')⟩


theorem c8_witness :
    ∃ chosen : List String,
      chosen.length = ([⟨"http://x/", "sig", [("a", "1")]⟩] : List Extension).length ∧
      chosen.Nodup ∧
      (∀ c ∈ chosen, c ∉ bannedPrefixes) ∧
      encodeExtensions [] [⟨"http://x/", "sig", [("a", "1")]⟩] =
        encodeWithChosen [⟨"http://x/", "sig", [("a", "1")]⟩] chosen [] [] ∧
      (∀ k, k < chosen.length →
        ((([⟨"http://x/", "sig", [("a", "1")]⟩] : List Extension).getD k
            ⟨"", "", []⟩).Pfx ∉ bannedPrefixes ∧
          (([⟨"http://x/", "sig", [("a", "1")]⟩] : List Extension).getD k
            ⟨"", "", []⟩).Pfx ∉ chosen.take k →
            chosen.getD k "" = (([⟨"http://x/", "sig", [("a", "1")]⟩] : List Extension).getD k
              ⟨"", "", []⟩).Pfx) ∧
        ((([⟨"http://x/", "sig", [("a", "1")]⟩] : List Extension).getD k
            ⟨"", "", []⟩).Pfx ∈ bannedPrefixes ∨
          (([⟨"http://x/", "sig", [("a", "1")]⟩] : List Extension).getD k
            ⟨"", "", []⟩).Pfx ∈ chosen.take k →
            ∃ j, chosen.getD k "" = extName j ∧ extName j ∉ chosen.take k ∧
              ∀ j' < j, extName j' ∈ chosen.take k)) :=
  c8_encode_extensions [] [⟨"http://x/", "sig", [("a", "1")]⟩]

end OpenId2
